import Mathlib

/-!
Verification development for the `thumbnails` bulk image-thumbnailer.

The repository is a single Rust source file (`src/main.rs`).  We shallowly
embed its components:

* byte-level models of the `std::path` helpers (`extension`, `file_stem`,
  `eq_ignore_ascii_case`) and UTF-8 validity (`OsStr::to_str`),
* the image codec boundary (`image::load_from_memory`,
  `image::imageops::resize`, `write_to(.., Jpeg(8))`) as an abstract
  interface with the library's documented contracts,
* `resize_image`, `sync_version` and the rayon data-parallel branch,
* the recursive `prepare` directory walk over a first-child/next-sibling
  tree model of the source file system,
* the smol-channel pipelined branch of `main` as a labelled transition
  system (reader task, CPU worker threads, writer task, two bounded
  queues, sender/receiver reference counting for channel close).
-/

/-- Decidable equality of `Except` results, used to evaluate concrete
runs of the embedded functions. -/
instance {ε α : Type} [DecidableEq ε] [DecidableEq α] : DecidableEq (Except ε α) := fun a b =>
  match a, b with
  | .ok x, .ok y => if h : x = y then .isTrue (by rw [h]) else .isFalse (by simp [h])
  | .error x, .error y => if h : x = y then .isTrue (by rw [h]) else .isFalse (by simp [h])
  | .ok _, .error _ => .isFalse (by simp)
  | .error _, .ok _ => .isFalse (by simp)

namespace Thumbnails

/-- Byte strings: the contents of `OsStr`/`Vec<u8>` values, one `Nat` per byte. -/
abbrev Bytes := List Nat

/-- Paths as lists of components (each component the byte string of one
file or directory name); `p ++ [n]` models `Path::join`. -/
abbrev FPath := List Bytes

/-- ASCII code of the dot. -/
def dotByte : Nat := 46

/-- Byte string of `"unk"`. -/
def unkBytes : Bytes := [117, 110, 107]

/-- Byte string of `".jpg"` (the suffix appended by `format!("{fstem}.jpg")`). -/
def dotJpgBytes : Bytes := [46, 106, 112, 103]

/-- Byte string of `"jpg"`. -/
def jpgBytes : Bytes := [106, 112, 103]

/-- Byte string of `"tif"` (the default `--extension`). -/
def tifBytes : Bytes := [116, 105, 102]

/-- Index (counted in the whole name) of the last dot strictly after
position 0, scanning `rest = name.drop 1` with `i` the index of its head.
Models the `slice[1..].iter().rposition(|b| *b == b'.')` search inside
Rust's `split_file_at_dot`. -/
def lastDotAux : Bytes → Nat → Option Nat
  | [], _ => none
  | b :: rest, i =>
    match lastDotAux rest (i + 1) with
    | some j => some j
    | none => if b = dotByte then some i else none

/-- Position of the last dot of a file name, ignoring a dot at position 0. -/
def lastDotPos (name : Bytes) : Option Nat :=
  match name with
  | [] => none
  | _ :: rest => lastDotAux rest 1

/-- Rust `std::path::split_file_at_dot`: split a file name into
(stem, optional extension).  `".."` and names without an inner dot are
returned whole with no extension. -/
def splitFileAtDot (name : Bytes) : Bytes × Option Bytes :=
  if name = [dotByte, dotByte] then (name, none)
  else
    match lastDotPos name with
    | none => (name, none)
    | some i => (name.take i, some (name.drop (i + 1)))

/-- `Path::file_stem` for a plain file name. -/
def fileStemB (name : Bytes) : Bytes := (splitFileAtDot name).1

/-- `Path::extension` for a plain file name. -/
def extensionB (name : Bytes) : Option Bytes := (splitFileAtDot name).2

/-- ASCII lower-casing of one byte (`u8::to_ascii_lowercase`). -/
def asciiLower (b : Nat) : Nat := if 65 ≤ b ∧ b ≤ 90 then b + 32 else b

/-- `OsStr::eq_ignore_ascii_case`: byte-wise comparison after ASCII
lower-casing both sides. -/
def eqIgnoreAsciiCase (a b : Bytes) : Bool := a.map asciiLower = b.map asciiLower

/-- UTF-8 validity of a byte string (`OsStr::to_str` succeeds exactly on
valid UTF-8); the standard table of well-formed byte sequences. -/
def isUtf8 : Bytes → Bool
  | [] => true
  | b :: rest =>
    if b < 128 then isUtf8 rest
    else if 194 ≤ b ∧ b ≤ 223 then
      match rest with
      | c1 :: rest2 => decide (128 ≤ c1 ∧ c1 ≤ 191) && isUtf8 rest2
      | [] => false
    else if b = 224 then
      match rest with
      | c1 :: c2 :: rest2 =>
        decide (160 ≤ c1 ∧ c1 ≤ 191) && decide (128 ≤ c2 ∧ c2 ≤ 191) && isUtf8 rest2
      | _ => false
    else if (225 ≤ b ∧ b ≤ 236) ∨ b = 238 ∨ b = 239 then
      match rest with
      | c1 :: c2 :: rest2 =>
        decide (128 ≤ c1 ∧ c1 ≤ 191) && decide (128 ≤ c2 ∧ c2 ≤ 191) && isUtf8 rest2
      | _ => false
    else if b = 237 then
      match rest with
      | c1 :: c2 :: rest2 =>
        decide (128 ≤ c1 ∧ c1 ≤ 159) && decide (128 ≤ c2 ∧ c2 ≤ 191) && isUtf8 rest2
      | _ => false
    else if b = 240 then
      match rest with
      | c1 :: c2 :: c3 :: rest2 =>
        decide (144 ≤ c1 ∧ c1 ≤ 191) && decide (128 ≤ c2 ∧ c2 ≤ 191) &&
          decide (128 ≤ c3 ∧ c3 ≤ 191) && isUtf8 rest2
      | _ => false
    else if 241 ≤ b ∧ b ≤ 243 then
      match rest with
      | c1 :: c2 :: c3 :: rest2 =>
        decide (128 ≤ c1 ∧ c1 ≤ 191) && decide (128 ≤ c2 ∧ c2 ≤ 191) &&
          decide (128 ≤ c3 ∧ c3 ≤ 191) && isUtf8 rest2
      | _ => false
    else if b = 244 then
      match rest with
      | c1 :: c2 :: c3 :: rest2 =>
        decide (128 ≤ c1 ∧ c1 ≤ 143) && decide (128 ≤ c2 ∧ c2 ≤ 191) &&
          decide (128 ≤ c3 ∧ c3 ≤ 191) && isUtf8 rest2
      | _ => false
    else false

/-- The resampling kernels of `image::imageops::FilterType` selectable on
the command line. -/
inductive Filter where
  | nearest
  | triangle
  | gaussian
  | catmullRom
  | lanczos3
deriving DecidableEq

/-- The image-codec errors at the interface boundary (`ImageError`),
distinguished only by phase. -/
inductive ImgErr where
  | decodeFail
  | encodeFail
deriving DecidableEq

/-- The error enum of the program (`enum Error`). -/
inductive Err where
  | cannotParseFilterType
  | image (e : ImgErr)
  | ioFail
  | sendFail
  | joinFail
deriving DecidableEq

/-- The external image-codec library at its interface boundary:
`load_from_memory` (decode, `none` on invalid/unsupported bytes),
`imageops::resize` (exact target dimensions), JPEG encoding with a quality
factor, and the pixel dimensions of a decoded image. -/
structure Codec (Img : Type) where
  loadFromMemory : Bytes → Option Img
  resize : Img → Nat → Nat → Filter → Img
  writeJpeg : Img → Nat → Option Bytes
  dims : Img → Nat × Nat

/-- The documented contracts of the codec library:
`imageops::resize` resamples to exactly the requested `nwidth × nheight`
(no aspect-ratio preservation), and JPEG encoding preserves pixel
dimensions through a decode round trip. -/
structure CodecOk {Img : Type} (c : Codec Img) : Prop where
  resize_dims : ∀ im w h f, c.dims (c.resize im w h f) = (w, h)
  encode_decode_dims : ∀ im q out im2,
    c.writeJpeg im q = some out → c.loadFromMemory out = some im2 →
    c.dims im2 = c.dims im

/-- `resize_image` (src/main.rs:56-62): decode the input bytes, resample to
`w × h` with filter `f`, re-encode as JPEG with the hard-coded
`ImageOutputFormat::Jpeg(8)` quality, and return the encoded bytes. -/
def resize_image {Img : Type} (c : Codec Img) (input : Bytes) (w h : Nat) (f : Filter) :
    Except Err Bytes :=
  match c.loadFromMemory input with
  | none => .error (.image .decodeFail)
  | some im =>
    match c.writeJpeg (c.resize im w h f) 8 with
    | none => .error (.image .encodeFail)
    | some out => .ok out

/-- `sync_version` (src/main.rs:64-70): read the source file, resize, and
write the result.  Returns the `Result` together with the list of file
writes performed (destination path, bytes). -/
def sync_version {Img : Type} (c : Codec Img) (fsRead : FPath → Option Bytes)
    (src dst : FPath) (w h : Nat) (f : Filter) :
    Except Err Unit × List (FPath × Bytes) :=
  match fsRead src with
  | none => (.error .ioFail, [])
  | some input =>
    match resize_image c input w h f with
    | .error e => (.error e, [])
    | .ok out => (.ok (), [(dst, out)])

/-- The rayon data-parallel branch (src/main.rs:186-188):
`list.into_par_iter().for_each(|(s, d)| sync_version(..).unwrap())`.
`true` iff every item succeeds; any failing item makes some task panic via
`unwrap`, so the process exits non-zero. -/
def parRunOk {Img : Type} (c : Codec Img) (fsRead : FPath → Option Bytes)
    (wl : List (FPath × FPath)) (w h : Nat) (f : Filter) : Bool :=
  wl.all fun it => (sync_version c fsRead it.1 it.2 w h f).1 matches .ok _

/-! ## The `prepare` directory walk (src/main.rs:87-113)

The source file system is modelled as a first-child/next-sibling tree: a
`Tree` value is the entry list of one directory.  `broken` models a
`read_dir` iterator yielding an `Err` entry; a `dir` node carries a
`readable` flag (`false` models `read_dir` failing on that directory).
The destination tree is modelled by the list of directory paths created
so far (`fs::create_dir_all`). -/

/-- Entry list of a source directory, first-child/next-sibling encoded. -/
inductive Tree where
  | nil
  | file (name : Bytes) (rest : Tree)
  | dir (name : Bytes) (readable : Bool) (children : Tree) (rest : Tree)
  | broken (rest : Tree)
deriving DecidableEq

/-- Errors of the traversal: `ioFail` for `read_dir`/entry errors
(propagated with `?`), `utf8Fault` for the `to_str().unwrap()` panic on a
non-UTF-8 directory name. -/
inductive PrepErr where
  | ioFail
  | utf8Fault
deriving DecidableEq

/-- Accumulator of the walk: directories created at the destination so
far, and the work list of `(sourcePath, destPath)` pairs. -/
abbrev PrepAcc := List FPath × List (FPath × FPath)

/-- All non-empty prefixes of a path: the directories brought into
existence by `fs::create_dir_all` on that path. -/
def ancestors (p : FPath) : List FPath :=
  (List.range p.length).map fun i => p.take (i + 1)

/-- `if !Path::new(dst).try_exists()? { fs::create_dir_all(dst)?; }`
(src/main.rs:88-90), with existence judged against the directories this
run has created (the destination tree is assumed absent at start). -/
def mkDirIfAbsent (dst : FPath) (acc : PrepAcc) : PrepAcc :=
  if dst ∈ acc.1 then acc
  else (acc.1 ++ (ancestors dst).filter (fun q => ¬ q ∈ acc.1), acc.2)

/-- Destination file name computed at src/main.rs:103-104:
`file_stem().map(|x| x.to_str()).unwrap_or_default().unwrap_or("unk")`
followed by `format!("{fstem}.jpg")`. -/
def destFileName (name : Bytes) : Bytes :=
  (if isUtf8 (fileStemB name) then fileStemB name else unkBytes) ++ dotJpgBytes

/-- The body of `prepare`'s entry loop (src/main.rs:92-110) over the entry
list `t` of the directory at source path `src`, mirrored at `dst`.
Directory entries recurse (the recursive call creates the mirrored
directory first); file entries are appended to the work list when their
extension matches `ext` case-insensitively and skipped otherwise; an
entry error or unreadable directory aborts with `ioFail`; a non-UTF-8
directory name hits `to_str().unwrap()` (`utf8Fault`). -/
def prepEntries (ext : Bytes) : Tree → FPath → FPath → PrepAcc → Except PrepErr PrepAcc
  | .nil, _, _, acc => .ok acc
  | .broken _, _, _, _ => .error .ioFail
  | .file name rest, src, dst, acc =>
    match extensionB name with
    | none => prepEntries ext rest src dst acc
    | some e =>
      if eqIgnoreAsciiCase e ext then
        prepEntries ext rest src dst
          (acc.1, acc.2 ++ [(src ++ [name], dst ++ [destFileName name])])
      else prepEntries ext rest src dst acc
  | .dir name readable children rest, src, dst, acc =>
    if isUtf8 name then
      let acc2 := mkDirIfAbsent (dst ++ [name]) acc
      if readable then
        match prepEntries ext children (src ++ [name]) (dst ++ [name]) acc2 with
        | .error e => .error e
        | .ok acc3 => prepEntries ext rest src dst acc3
      else .error .ioFail
    else .error .utf8Fault

/-- `prepare` (src/main.rs:87-113) run on the source root: create the
destination root first, then walk the root's entries (`rootReadable`
models `read_dir(src)` on the root). -/
def prepare (ext : Bytes) (src dst : FPath) (rootReadable : Bool) (root : Tree) :
    Except PrepErr PrepAcc :=
  let acc := mkDirIfAbsent dst ([], [])
  if rootReadable then prepEntries ext root src dst acc else .error .ioFail

/-- `matchesExt name ext` holds iff a file called `name` passes the filter
at src/main.rs:100-102: it has an extension equal to `ext` up to ASCII
case. -/
def matchesExt (name ext : Bytes) : Bool :=
  match extensionB name with
  | none => false
  | some e => eqIgnoreAsciiCase e ext

/-- Relative paths of all source subdirectories appearing in the tree. -/
def dirPaths : Tree → List FPath
  | .nil => []
  | .broken rest => dirPaths rest
  | .file _ rest => dirPaths rest
  | .dir n _ children rest =>
    [n] :: ((dirPaths children).map fun p => n :: p) ++ dirPaths rest

/-- First directory called `n` in an entry list, returning its
`(readable, children)` data. -/
def findDir : Tree → Bytes → Option (Bool × Tree)
  | .nil, _ => none
  | .broken rest, n => findDir rest n
  | .file _ rest, n => findDir rest n
  | .dir m readable children rest, n =>
    if m = n then some (readable, children) else findDir rest n

/-- Entry list of the subdirectory at relative path `p` (following first
matches). -/
def subtreeAt : Tree → FPath → Option Tree
  | t, [] => some t
  | t, n :: p =>
    match findDir t n with
    | none => none
    | some (_, children) => subtreeAt children p

/-- Top-level file names of an entry list. -/
def filesOf : Tree → List Bytes
  | .nil => []
  | .broken rest => filesOf rest
  | .file n rest => n :: filesOf rest
  | .dir _ _ _ rest => filesOf rest

/-- Modelled from the spec: "the destination directory tree mirrors the
subset of the source tree that contains at least one matching file" — a
subtree contains at least one file matching the extension filter. -/
def specHasMatchingFile (ext : Bytes) : Tree → Bool
  | .nil => false
  | .broken rest => specHasMatchingFile ext rest
  | .file n rest => matchesExt n ext || specHasMatchingFile ext rest
  | .dir _ _ children rest =>
    specHasMatchingFile ext children || specHasMatchingFile ext rest

/-- The work list produced by a successful walk of entry list `t`, written
as a direct recursion (used to characterise `prepare`'s accumulator). -/
def wlSpec (ext : Bytes) : Tree → FPath → FPath → List (FPath × FPath)
  | .nil, _, _ => []
  | .broken rest, src, dst => wlSpec ext rest src dst
  | .file n rest, src, dst =>
    (if matchesExt n ext then [(src ++ [n], dst ++ [destFileName n])] else []) ++
      wlSpec ext rest src dst
  | .dir n _ children rest, src, dst =>
    wlSpec ext children (src ++ [n]) (dst ++ [n]) ++ wlSpec ext rest src dst

/-! ## The pipelined strategy (src/main.rs:122-184)

The asynchronous branch of `main` is modelled as a labelled transition
system.  Payloads carry a ghost source-index so that provenance can be
stated; the bytes and destination path are exactly what flows through the
smol channels.  Channel closure follows smol's reference counting: the
input queue's only sender is the reader task (`input_sx`); its receivers
are the per-worker `input_rx` clones plus the original kept by the scope
closure until the joins finish; the output queue's senders are the
per-worker `output_sx` clones plus the scope's original, and its only
receiver is the writer task.  Dropping the `smol::spawn` task handles
when `main` returns early (after a scope error, or after `open_files`
yields an error inside `block_on`) cancels the corresponding task. -/

/-- A payload in flight: ghost work-list index, byte buffer (raw or
encoded), destination path. -/
abbrev Item := Nat × Bytes × FPath

/-- Status of one CPU worker thread (src/main.rs:162-169). -/
inductive WStatus where
  | idle
  | busy (it : Item)
  | sending (it : Item)
  | doneOk
  | doneErr
deriving DecidableEq

/-- A worker has exited its loop (and dropped its `input_rx`/`output_sx`
clones). -/
def WStatus.isDone : WStatus → Bool
  | .doneOk => true
  | .doneErr => true
  | _ => false

/-- Status of the reader task `open_files` (src/main.rs:134-145).
`reading pos` is about to open the file of work item `pos`;
`sending pos it` holds a read payload awaiting queue room (`pos` is the
next index).  On exit (all three done states) `input_sx` is dropped. -/
inductive RStatus where
  | reading (pos : Nat)
  | sending (pos : Nat) (it : Item)
  | doneOk
  | doneErr
  | cancelled
deriving DecidableEq

/-- The reader task has exited (normally, on error, or cancelled), so the
input queue's only sender is gone. -/
def RStatus.isDone : RStatus → Bool
  | .reading _ => false
  | .sending _ _ => false
  | _ => true

/-- Status of the writer task `write_files` (src/main.rs:147-154).  On
exit `output_rx` is dropped. -/
inductive WrStatus where
  | running
  | doneOk
  | doneErr
  | cancelled
deriving DecidableEq

/-- Static data of one pipelined run: the codec, the file system
(`fsRead` models `File::open` + `read_to_end`, `writeOk` tells whether
`smol::fs::write` succeeds), the work list from `prepare`, the queue
capacity `--limit`, the worker count `num_cpus::get()`, and the resize
configuration. -/
structure PipeCfg (Img : Type) where
  c : Codec Img
  fsRead : FPath → Option Bytes
  writeOk : FPath → Bytes → Bool
  wl : List (FPath × FPath)
  L : Nat
  N : Nat
  w : Nat
  h : Nat
  f : Filter

/-- Dynamic state of the pipeline. -/
structure PipeState where
  reader : RStatus
  inQ : List Item
  workers : List WStatus
  outQ : List Item
  writer : WrStatus
  written : List Item
  mainHandles : Bool
deriving DecidableEq

/-- Number of workers still holding their channel clones. -/
def countActive (l : List WStatus) : Nat := l.countP fun st => !st.isDone

/-- Live holders of an `input_rx` receiver — equally, of an `output_sx`
sender: the active workers plus the scope closure while it has not yet
dropped the originals. -/
def handleCount (s : PipeState) : Nat :=
  countActive s.workers + (if s.mainHandles then 1 else 0)

/-- The output queue is closed: every sender (`output_sx` original and all
worker clones) has been dropped. -/
def outClosed (s : PipeState) : Prop := handleCount s = 0

/-- The join loop of the scope closure (src/main.rs:171-174) has returned:
either every join yielded `Ok` or some worker's error was propagated by
`??` after all earlier workers joined successfully. -/
def joinsDone (ws : List WStatus) : Prop :=
  (∀ st ∈ ws, st = WStatus.doneOk) ∨
    ∃ k : Nat, ws[k]? = some WStatus.doneErr ∧ ∀ j : Nat, j < k → ws[j]? = some WStatus.doneOk

/-- `main` has returned early with an error, dropping (and thereby
cancelling) the `open_files`/`write_files` task handles: the scope
closure has finished (handles dropped), every worker thread has been
joined by the scope, and either some worker or the reader ended in
error. -/
def cancelReady (s : PipeState) : Prop :=
  s.mainHandles = false ∧ countActive s.workers = 0 ∧
    ((∃ st ∈ s.workers, st = WStatus.doneErr) ∨ s.reader = RStatus.doneErr)

/-- Transition labels (ghost indices identify work items and workers). -/
inductive Lab where
  | rRead (i : Nat)
  | rReadErr (i : Nat)
  | rSend (i : Nat)
  | rSendClosed
  | rFinish
  | rCancel
  | wkRecv (k i : Nat)
  | wkRecvClosed (k : Nat)
  | wkOk (k i : Nat)
  | wkErr (k i : Nat)
  | wkSend (k i : Nat)
  | wkSendClosed (k : Nat)
  | wrWrite (i : Nat)
  | wrWriteFail (i : Nat)
  | wrFinish
  | wrCancel
  | mDrop
deriving DecidableEq

/-- One interleaving step of the pipelined strategy. -/
inductive Step {Img : Type} (cfg : PipeCfg Img) : PipeState → Lab → PipeState → Prop where
  /-- Reader opens and fully reads the next source file
  (src/main.rs:136-139). -/
  | rRead : ∀ s pos sp dp content,
      s.reader = RStatus.reading pos →
      cfg.wl[pos]? = some (sp, dp) →
      cfg.fsRead sp = some content →
      Step cfg s (.rRead pos) { s with reader := .sending (pos + 1) (pos, content, dp) }
  /-- Opening or reading a source file fails; `?` exits the task, dropping
  `input_sx`. -/
  | rReadErr : ∀ s pos sp dp,
      s.reader = RStatus.reading pos →
      cfg.wl[pos]? = some (sp, dp) →
      cfg.fsRead sp = none →
      Step cfg s (.rReadErr pos) { s with reader := .doneErr }
  /-- Reader enqueues the read payload; `send(..).await` completes only
  when the bounded input queue has room (src/main.rs:140). -/
  | rSend : ∀ s pos it,
      s.reader = RStatus.sending pos it →
      s.inQ.length < cfg.L →
      0 < handleCount s →
      Step cfg s (.rSend it.1) { s with reader := .reading pos, inQ := s.inQ ++ [it] }
  /-- All input receivers are gone, so the send fails and the reader exits
  with `SendError`. -/
  | rSendClosed : ∀ s pos it,
      s.reader = RStatus.sending pos it →
      handleCount s = 0 →
      Step cfg s .rSendClosed { s with reader := .doneErr }
  /-- The work list is exhausted; the reader drops `input_sx`
  (src/main.rs:143). -/
  | rFinish : ∀ s pos,
      s.reader = RStatus.reading pos →
      cfg.wl[pos]? = none →
      Step cfg s .rFinish { s with reader := .doneOk }
  /-- `main` returned early with an error and dropped the `open_files`
  task handle, cancelling the reader. -/
  | rCancel : ∀ s,
      s.reader.isDone = false →
      cancelReady s →
      Step cfg s .rCancel { s with reader := .cancelled }
  /-- A worker's `recv_blocking` obtains the oldest queued payload
  (src/main.rs:163). -/
  | wkRecv : ∀ s k it rest,
      s.workers[k]? = some WStatus.idle →
      s.inQ = it :: rest →
      Step cfg s (.wkRecv k it.1) { s with workers := s.workers.set k (.busy it), inQ := rest }
  /-- `recv_blocking` returns `Err` because the input queue is closed and
  drained; the worker exits its loop normally. -/
  | wkRecvClosed : ∀ s k,
      s.workers[k]? = some WStatus.idle →
      s.inQ = [] →
      s.reader.isDone = true →
      Step cfg s (.wkRecvClosed k) { s with workers := s.workers.set k .doneOk }
  /-- `resize_image` succeeds (src/main.rs:164-165). -/
  | wkOk : ∀ s k it out,
      s.workers[k]? = some (WStatus.busy it) →
      resize_image cfg.c it.2.1 cfg.w cfg.h cfg.f = .ok out →
      Step cfg s (.wkOk k it.1) { s with workers := s.workers.set k (.sending (it.1, out, it.2.2)) }
  /-- `resize_image` fails; `?` exits the worker with an error
  (src/main.rs:165). -/
  | wkErr : ∀ s k it e,
      s.workers[k]? = some (WStatus.busy it) →
      resize_image cfg.c it.2.1 cfg.w cfg.h cfg.f = .error e →
      Step cfg s (.wkErr k it.1) { s with workers := s.workers.set k .doneErr }
  /-- `send_blocking` enqueues the encoded payload once the bounded output
  queue has room (src/main.rs:166). -/
  | wkSend : ∀ s k it,
      s.workers[k]? = some (WStatus.sending it) →
      s.outQ.length < cfg.L →
      s.writer = WrStatus.running →
      Step cfg s (.wkSend k it.1) { s with workers := s.workers.set k .idle, outQ := s.outQ ++ [it] }
  /-- The writer (sole output receiver) is gone, so `send_blocking` fails
  and the worker exits with `SendError`. -/
  | wkSendClosed : ∀ s k it,
      s.workers[k]? = some (WStatus.sending it) →
      s.writer ≠ WrStatus.running →
      Step cfg s (.wkSendClosed k) { s with workers := s.workers.set k .doneErr }
  /-- The writer receives the oldest encoded payload and writes it
  (src/main.rs:148-149). -/
  | wrWrite : ∀ s it rest,
      s.writer = WrStatus.running →
      s.outQ = it :: rest →
      cfg.writeOk it.2.2 it.2.1 = true →
      Step cfg s (.wrWrite it.1) { s with outQ := rest, written := s.written ++ [it] }
  /-- The disk write fails; `?` exits the writer task with an error,
  dropping `output_rx`. -/
  | wrWriteFail : ∀ s it rest,
      s.writer = WrStatus.running →
      s.outQ = it :: rest →
      cfg.writeOk it.2.2 it.2.1 = false →
      Step cfg s (.wrWriteFail it.1) { s with outQ := rest, writer := .doneErr }
  /-- `recv` returns `Err` because every output sender is dropped and the
  queue is drained; the writer exits its loop normally. -/
  | wrFinish : ∀ s,
      s.writer = WrStatus.running →
      s.outQ = [] →
      handleCount s = 0 →
      Step cfg s .wrFinish { s with writer := .doneOk }
  /-- `main` returned early with an error and dropped the `write_files`
  task handle, cancelling the writer. -/
  | wrCancel : ∀ s,
      s.writer = WrStatus.running →
      cancelReady s →
      Step cfg s .wrCancel { s with writer := .cancelled }
  /-- The scope closure finishes its join loop (normally or by `??` early
  return) and drops the original `input_rx` and `output_sx`
  (src/main.rs:171-176). -/
  | mDrop : ∀ s,
      s.mainHandles = true →
      joinsDone s.workers →
      Step cfg s .mDrop { s with mainHandles := false }

/-- Initial state: reader at the head of the work list, `N` idle workers,
both queues empty, writer running, scope originals alive. -/
def pipeInit {Img : Type} (cfg : PipeCfg Img) : PipeState :=
  { reader := .reading 0, inQ := [], workers := List.replicate cfg.N .idle,
    outQ := [], writer := .running, written := [], mainHandles := true }

/-- States reachable from the initial state. -/
inductive Reach {Img : Type} (cfg : PipeCfg Img) : PipeState → Prop where
  | init : Reach cfg (pipeInit cfg)
  | step : ∀ {s l t}, Reach cfg s → Step cfg s l t → Reach cfg t

/-- A finite execution fragment: the list of (label, post-state) pairs of
consecutive steps starting at `s`. -/
inductive Exec {Img : Type} (cfg : PipeCfg Img) : PipeState → List (Lab × PipeState) → Prop where
  | nil : ∀ s, Exec cfg s []
  | cons : ∀ s l t tr, Step cfg s l t → Exec cfg t tr → Exec cfg s ((l, t) :: tr)

/-- Reachability between two states. -/
def ReachFrom {Img : Type} (cfg : PipeCfg Img) : PipeState → PipeState → Prop :=
  Relation.ReflTransGen fun a b => ∃ l, Step cfg a l b

/-- No step is enabled: the run is over. -/
def Terminal {Img : Type} (cfg : PipeCfg Img) (s : PipeState) : Prop :=
  ∀ l t, ¬ Step cfg s l t

/-- `main`'s asynchronous branch returns `Ok` exactly when every join
yielded `Ok` and both `open_files` and `write_files` resolved to `Ok`
(src/main.rs:157-184). -/
def runOk (s : PipeState) : Prop :=
  (∀ st ∈ s.workers, st = WStatus.doneOk) ∧
    s.reader = RStatus.doneOk ∧ s.writer = WrStatus.doneOk

/-- Provenance of a raw payload: it is work item `it.1`'s source bytes
paired with its destination path. -/
def goodIn {Img : Type} (cfg : PipeCfg Img) (it : Item) : Prop :=
  ∃ sp dp, cfg.wl[it.1]? = some (sp, dp) ∧ cfg.fsRead sp = some it.2.1 ∧ it.2.2 = dp

/-- Provenance of an encoded payload: work item `it.1` was read and
resized successfully, yielding exactly these bytes. -/
def goodOut {Img : Type} (cfg : PipeCfg Img) (it : Item) : Prop :=
  ∃ sp dp raw, cfg.wl[it.1]? = some (sp, dp) ∧ cfg.fsRead sp = some raw ∧
    resize_image cfg.c raw cfg.w cfg.h cfg.f = .ok it.2.1 ∧ it.2.2 = dp

/-- Provenance requirement on one worker status. -/
def wProv {Img : Type} (cfg : PipeCfg Img) : WStatus → Prop
  | .busy it => goodIn cfg it
  | .sending it => goodOut cfg it
  | _ => True

/-- Inductive invariant of the pipeline: queue bounds, the writer's
normal-termination condition, and payload provenance at every stage. -/
structure Inv {Img : Type} (cfg : PipeCfg Img) (s : PipeState) : Prop where
  inBound : s.inQ.length ≤ cfg.L
  outBound : s.outQ.length ≤ cfg.L
  wrOk : s.writer = WrStatus.doneOk → handleCount s = 0 ∧ s.outQ = []
  provIn : ∀ it ∈ s.inQ, goodIn cfg it
  provRd : ∀ (pos : Nat) (it : Item), s.reader = RStatus.sending pos it → goodIn cfg it
  provW : ∀ (k : Nat) (st : WStatus), s.workers[k]? = some st → wProv cfg st
  provOut : ∀ it ∈ s.outQ, goodOut cfg it
  provWr : ∀ it ∈ s.written, goodOut cfg it

/-! ## `main` (src/main.rs:115-192)

`main` runs `prepare` with `?` (aborting on error) and only then enters
one of the two strategies.  `MainRun` relates a run of `main` to the
work-item indices whose source file was opened (`reads`), whose bytes
were passed to `resize_image` (`resizes`), whose output was written
(`writes`), and to whether the process exits successfully. -/

/-- Work-item indices on whose bytes the data-parallel branch invokes
`resize_image` (those whose source read succeeds). -/
def syncResizeIdx (fsRead : FPath → Option Bytes) (wl : List (FPath × FPath)) : List Nat :=
  (List.range wl.length).filter fun i => (wl[i]?.bind fun it => fsRead it.1).isSome

/-- Work-item indices for which the data-parallel branch writes an output
file (read and resize both succeed). -/
def syncWriteIdx {Img : Type} (c : Codec Img) (fsRead : FPath → Option Bytes)
    (wl : List (FPath × FPath)) (w h : Nat) (f : Filter) : List Nat :=
  (List.range wl.length).filter fun i =>
    match wl[i]? with
    | some it => ((sync_version c fsRead it.1 it.2 w h f).1 matches .ok _)
    | none => false

/-- Work item opened and read by a pipeline step. -/
def labRead : Lab → Option Nat
  | .rRead i => some i
  | .rReadErr i => some i
  | _ => none

/-- Work item passed to `resize_image` by a pipeline step. -/
def labResize : Lab → Option Nat
  | .wkOk _ i => some i
  | .wkErr _ i => some i
  | _ => none

/-- Work item whose output file is written by a pipeline step. -/
def labWrite : Lab → Option Nat
  | .wrWrite i => some i
  | _ => none

/-- Boolean form of `runOk`. -/
def runOkB (s : PipeState) : Bool :=
  (s.workers.all fun st => decide (st = WStatus.doneOk)) &&
    decide (s.reader = RStatus.doneOk) && decide (s.writer = WrStatus.doneOk)

/-- The command-line configuration of one run (`struct Args` plus the
worker count). -/
structure RunArgs where
  src : FPath
  dst : FPath
  rootReadable : Bool
  root : Tree
  ext : Bytes
  w : Nat
  h : Nat
  f : Filter
  asynchronous : Bool
  L : Nat
  N : Nat

/-- `MainRun c fsRead writeOk a reads resizes writes ok`: one possible run
of `main` with arguments `a` over the modelled file system, recording the
work items read, resized, and written, and the success flag.  `prepare`
failing short-circuits at src/main.rs:119 before either strategy starts. -/
inductive MainRun {Img : Type} (c : Codec Img) (fsRead : FPath → Option Bytes)
    (writeOk : FPath → Bytes → Bool) (a : RunArgs) :
    List Nat → List Nat → List Nat → Bool → Prop where
  | prepFail : ∀ e,
      prepare a.ext a.src a.dst a.rootReadable a.root = .error e →
      MainRun c fsRead writeOk a [] [] [] false
  | syncRun : ∀ cr wl,
      prepare a.ext a.src a.dst a.rootReadable a.root = .ok (cr, wl) →
      a.asynchronous = false →
      MainRun c fsRead writeOk a (List.range wl.length)
        (syncResizeIdx fsRead wl)
        (syncWriteIdx c fsRead wl a.w a.h a.f)
        (parRunOk c fsRead wl a.w a.h a.f)
  | asyncRun : ∀ cr wl tr,
      prepare a.ext a.src a.dst a.rootReadable a.root = .ok (cr, wl) →
      a.asynchronous = true →
      Exec { c := c, fsRead := fsRead, writeOk := writeOk, wl := wl,
             L := a.L, N := a.N, w := a.w, h := a.h, f := a.f }
        (pipeInit { c := c, fsRead := fsRead, writeOk := writeOk, wl := wl,
                    L := a.L, N := a.N, w := a.w, h := a.h, f := a.f }) tr →
      MainRun c fsRead writeOk a
        (tr.filterMap fun p => labRead p.1)
        (tr.filterMap fun p => labResize p.1)
        (tr.filterMap fun p => labWrite p.1)
        (runOkB ((tr.map Prod.snd).getLastD
          (pipeInit { c := c, fsRead := fsRead, writeOk := writeOk, wl := wl,
                      L := a.L, N := a.N, w := a.w, h := a.h, f := a.f })))

/-! ## Concrete instances used to evaluate the model -/

/-- A concrete codec satisfying the library contracts, used to exercise
the theorems on closed inputs: a "valid image" is exactly a two-byte
buffer `[w, h]` with dimensions `(w, h)`; resizing forces the requested
dimensions; encoding writes the dimensions back. -/
def pairCodec : Codec (Nat × Nat) where
  loadFromMemory := fun b =>
    match b with
    | [w, h] => some (w, h)
    | _ => none
  resize := fun _ w h _ => (w, h)
  writeJpeg := fun im _ => some [im.1, im.2]
  dims := fun im => im

/-- Pipeline configuration with two work items whose first source file
holds undecodable bytes; two workers, both queues of capacity 2. -/
def cexCfg2 : PipeCfg (Nat × Nat) where
  c := pairCodec
  fsRead := fun p => if p = [[48]] then some [] else if p = [[49]] then some [5, 5] else none
  writeOk := fun _ _ => true
  wl := [([[48]], [[70]]), ([[49]], [[71]])]
  L := 2
  N := 2
  w := 1
  h := 1
  f := .nearest

def c2it0 : Item := (0, [], [[70]])

def c2it1 : Item := (1, [5, 5], [[71]])

def c2out1 : Item := (1, [1, 1], [[71]])

def c2s1 : PipeState :=
  { reader := .sending 1 c2it0, inQ := [], workers := [.idle, .idle], outQ := [],
    writer := .running, written := [], mainHandles := true }

def c2s2 : PipeState := { c2s1 with reader := .reading 1, inQ := [c2it0] }

def c2s3 : PipeState := { c2s2 with inQ := [], workers := [.busy c2it0, .idle] }

def c2s4 : PipeState := { c2s3 with workers := [.doneErr, .idle] }

def c2s5 : PipeState := { c2s4 with reader := .sending 2 c2it1 }

def c2s6 : PipeState := { c2s5 with reader := .reading 2, inQ := [c2it1] }

def c2s7 : PipeState := { c2s6 with inQ := [], workers := [.doneErr, .busy c2it1] }

def c2s8 : PipeState := { c2s7 with workers := [.doneErr, .sending c2out1] }

/-- An execution of `cexCfg2` in which worker 0 fails on item 0, the
reader then submits item 1, and worker 1 receives and resizes it. -/
def c2trace : List (Lab × PipeState) :=
  [(.rRead 0, c2s1), (.rSend 0, c2s2), (.wkRecv 0 0, c2s3), (.wkErr 0 0, c2s4),
   (.rRead 1, c2s5), (.rSend 1, c2s6), (.wkRecv 1 1, c2s7), (.wkOk 1 1, c2s8)]

/-- Pipeline configuration with one valid work item whose destination
write fails; one worker, queues of capacity 1. -/
def cexCfg1 : PipeCfg (Nat × Nat) where
  c := pairCodec
  fsRead := fun p => if p = [[48]] then some [5, 5] else none
  writeOk := fun _ _ => false
  wl := [([[48]], [[70]])]
  L := 1
  N := 1
  w := 1
  h := 1
  f := .nearest

def c1it : Item := (0, [5, 5], [[70]])

def c1out : Item := (0, [1, 1], [[70]])

def c1u1 : PipeState :=
  { reader := .sending 1 c1it, inQ := [], workers := [.idle], outQ := [],
    writer := .running, written := [], mainHandles := true }

def c1u2 : PipeState := { c1u1 with reader := .reading 1, inQ := [c1it] }

def c1u3 : PipeState := { c1u2 with inQ := [], workers := [.busy c1it] }

def c1u4 : PipeState := { c1u3 with workers := [.sending c1out] }

def c1u5 : PipeState := { c1u4 with workers := [.idle], outQ := [c1out] }

def c1u6 : PipeState := { c1u5 with outQ := [], writer := .doneErr }

/-- Like `cexCfg1` but with succeeding writes, used to fill the input
queue to its capacity. -/
def fillCfg : PipeCfg (Nat × Nat) where
  c := pairCodec
  fsRead := fun p => if p = [[48]] then some [5, 5] else none
  writeOk := fun _ _ => true
  wl := [([[48]], [[70]])]
  L := 1
  N := 1
  w := 1
  h := 1
  f := .nearest

def fillS1 : PipeState :=
  { reader := .sending 1 (0, [5, 5], [[70]]), inQ := [], workers := [.idle], outQ := [],
    writer := .running, written := [], mainHandles := true }

def fillS2 : PipeState :=
  { fillS1 with reader := .reading 1, inQ := [(0, [5, 5], [[70]])] }

/-- Steps taken by a worker thread. -/
def Lab.isWorkerLab : Lab → Bool
  | .wkRecv _ _ => true
  | .wkRecvClosed _ => true
  | .wkOk _ _ => true
  | .wkErr _ _ => true
  | .wkSend _ _ => true
  | .wkSendClosed _ => true
  | _ => false

/-- Modelled from the claim: in every pipelined execution, once any
worker has exited with an error, no work item enqueued afterwards is ever
received by a worker. -/
def noItemAfterFailureProcessed {Img : Type} (cfg : PipeCfg Img) : Prop :=
  ∀ tr, Exec cfg (pipeInit cfg) tr →
    ∀ a b c2 : Nat, a ≤ b → b ≤ c2 →
      (∃ k i, (tr[a]?).map Prod.fst = some (Lab.wkErr k i)) →
      ∀ m, (tr[b]?).map Prod.fst = some (Lab.rSend m) →
        ∀ k2, (tr[c2]?).map Prod.fst ≠ some (Lab.wkRecv k2 m)

/-- Modelled from the claim: the writer task only ever stops after the
output queue is closed and fully drained. -/
def writerStopsAfterCloseAndDrain {Img : Type} (cfg : PipeCfg Img) : Prop :=
  ∀ s l t, Reach cfg s → Step cfg s l t →
    s.writer = WrStatus.running → t.writer ≠ WrStatus.running →
    handleCount s = 0 ∧ s.outQ = []

/-- A `RunArgs` whose root directory read fails immediately. -/
def c9args : RunArgs :=
  { src := [[115]], dst := [[100]], rootReadable := true, root := .broken .nil,
    ext := tifBytes, w := 1, h := 1, f := .nearest, asynchronous := false, L := 1, N := 1 }

/-! ## Lemmas about the directory walk -/

theorem mem_mkDirIfAbsent {q : FPath} (p : FPath) (acc : PrepAcc) (hq : q ∈ acc.1) :
    q ∈ (mkDirIfAbsent p acc).1 := by
  unfold mkDirIfAbsent
  split
  · exact hq
  · exact List.mem_append_left _ hq

theorem self_mem_mkDirIfAbsent (p : FPath) (acc : PrepAcc) (hp : p ≠ []) :
    p ∈ (mkDirIfAbsent p acc).1 := by
  unfold mkDirIfAbsent
  split
  · assumption
  · next h =>
    refine List.mem_append_right _ ?_
    rw [List.mem_filter]
    refine ⟨?_, by simpa using h⟩
    unfold ancestors
    refine List.mem_map.mpr ⟨p.length - 1, List.mem_range.mpr ?_, ?_⟩
    · have := List.length_pos.mpr hp
      omega
    · have hlen : p.length - 1 + 1 = p.length := by
        have := List.length_pos.mpr hp
        omega
      rw [hlen, List.take_length]

theorem mkDirIfAbsent_snd (p : FPath) (acc : PrepAcc) : (mkDirIfAbsent p acc).2 = acc.2 := by
  unfold mkDirIfAbsent
  split <;> rfl

/-- A successful walk only grows the set of created directories. -/
theorem prepEntries_mono (ext : Bytes) (t : Tree) :
    ∀ src dst acc acc2, prepEntries ext t src dst acc = .ok acc2 →
      ∀ q ∈ acc.1, q ∈ acc2.1 := by
  induction t with
  | nil =>
    intro src dst acc acc2 h q hq
    simp only [prepEntries] at h
    cases h
    exact hq
  | broken rest ih =>
    intro src dst acc acc2 h
    simp [prepEntries] at h
  | file n rest ih =>
    intro src dst acc acc2 h q hq
    simp only [prepEntries] at h
    cases hx : extensionB n with
    | none =>
      simp only [hx] at h
      exact ih _ _ _ _ h q hq
    | some e =>
      simp only [hx] at h
      by_cases hm : eqIgnoreAsciiCase e ext
      · rw [if_pos hm] at h
        exact ih _ _ _ _ h q hq
      · rw [if_neg hm] at h
        exact ih _ _ _ _ h q hq
  | dir n readable children rest ihc ihr =>
    intro src dst acc acc2 h q hq
    simp only [prepEntries] at h
    cases hu : isUtf8 n with
    | false =>
      rw [hu] at h
      simp at h
    | true =>
      rw [hu] at h
      simp only [if_true] at h
      cases readable with
      | false => simp at h
      | true =>
        simp only [if_true] at h
        cases hc : prepEntries ext children (src ++ [n]) (dst ++ [n])
            (mkDirIfAbsent (dst ++ [n]) acc) with
        | error e => rw [hc] at h; exact absurd h (by simp)
        | ok acc3 =>
          rw [hc] at h
          exact ihr _ _ _ _ h q (ihc _ _ _ _ hc q (mem_mkDirIfAbsent _ _ hq))

/-- Every source subdirectory appearing in the walked tree gets its
mirrored destination directory created. -/
theorem prepEntries_dirPaths (ext : Bytes) (t : Tree) :
    ∀ src dst acc acc2, prepEntries ext t src dst acc = .ok acc2 →
      ∀ p ∈ dirPaths t, (dst ++ p) ∈ acc2.1 := by
  induction t with
  | nil =>
    intro src dst acc acc2 h p hp
    simp [dirPaths] at hp
  | broken rest ih =>
    intro src dst acc acc2 h
    simp [prepEntries] at h
  | file n rest ih =>
    intro src dst acc acc2 h p hp
    simp only [dirPaths] at hp
    simp only [prepEntries] at h
    cases hx : extensionB n with
    | none =>
      simp only [hx] at h
      exact ih _ _ _ _ h p hp
    | some e =>
      simp only [hx] at h
      by_cases hm : eqIgnoreAsciiCase e ext
      · rw [if_pos hm] at h
        exact ih _ _ _ _ h p hp
      · rw [if_neg hm] at h
        exact ih _ _ _ _ h p hp
  | dir n readable children rest ihc ihr =>
    intro src dst acc acc2 h p hp
    simp only [prepEntries] at h
    cases hu : isUtf8 n with
    | false => rw [hu] at h; simp at h
    | true =>
      rw [hu] at h
      simp only [if_true] at h
      cases readable with
      | false => simp at h
      | true =>
        simp only [if_true] at h
        cases hc : prepEntries ext children (src ++ [n]) (dst ++ [n])
            (mkDirIfAbsent (dst ++ [n]) acc) with
        | error e => rw [hc] at h; exact absurd h (by simp)
        | ok acc3 =>
          rw [hc] at h
          simp only [dirPaths, List.mem_cons, List.mem_append, List.mem_map] at hp
          rcases hp with (hp | ⟨q, hq, rfl⟩) | hp
          · subst hp
            refine prepEntries_mono ext rest _ _ _ _ h _ ?_
            have hself := self_mem_mkDirIfAbsent (dst ++ [n]) acc (by simp)
            exact prepEntries_mono ext children _ _ _ _ hc _ hself
          · refine prepEntries_mono ext rest _ _ _ _ h _ ?_
            have := ihc _ _ _ _ hc q hq
            simpa [List.append_assoc] using this
          · exact ihr _ _ _ _ h p hp

/-- The work list accumulated by a successful walk is exactly `wlSpec`. -/
theorem prepEntries_wl (ext : Bytes) (t : Tree) :
    ∀ src dst acc acc2, prepEntries ext t src dst acc = .ok acc2 →
      acc2.2 = acc.2 ++ wlSpec ext t src dst := by
  induction t with
  | nil =>
    intro src dst acc acc2 h
    simp only [prepEntries] at h
    cases h
    simp [wlSpec]
  | broken rest ih =>
    intro src dst acc acc2 h
    simp [prepEntries] at h
  | file n rest ih =>
    intro src dst acc acc2 h
    simp only [prepEntries] at h
    cases hx : extensionB n with
    | none =>
      simp only [hx] at h
      rw [ih _ _ _ _ h]
      simp [wlSpec, matchesExt, hx]
    | some e =>
      simp only [hx] at h
      by_cases hm : eqIgnoreAsciiCase e ext
      · rw [if_pos hm] at h
        rw [ih _ _ _ _ h]
        simp [wlSpec, matchesExt, hx, hm]
      · rw [if_neg hm] at h
        rw [ih _ _ _ _ h]
        simp [wlSpec, matchesExt, hx, hm]
  | dir n readable children rest ihc ihr =>
    intro src dst acc acc2 h
    simp only [prepEntries] at h
    cases hu : isUtf8 n with
    | false => rw [hu] at h; simp at h
    | true =>
      rw [hu] at h
      simp only [if_true] at h
      cases readable with
      | false => simp at h
      | true =>
        simp only [if_true] at h
        cases hc : prepEntries ext children (src ++ [n]) (dst ++ [n])
            (mkDirIfAbsent (dst ++ [n]) acc) with
        | error e => rw [hc] at h; exact absurd h (by simp)
        | ok acc3 =>
          rw [hc] at h
          rw [ihr _ _ _ _ h, ihc _ _ _ _ hc, mkDirIfAbsent_snd]
          simp [wlSpec]

/-- Every work-list entry is a matching file of some visited directory,
with the destination name computed by `destFileName`. -/
theorem wlSpec_shape (ext : Bytes) (t : Tree) :
    ∀ src dst it, it ∈ wlSpec ext t src dst →
      ∃ p n, it = (src ++ p ++ [n], dst ++ p ++ [destFileName n]) ∧
        matchesExt n ext = true := by
  induction t with
  | nil => intro src dst it h; simp [wlSpec] at h
  | broken rest ih =>
    intro src dst it h
    exact ih _ _ _ (by simpa [wlSpec] using h)
  | file n rest ih =>
    intro src dst it h
    simp only [wlSpec] at h
    rcases List.mem_append.mp h with h | h
    · by_cases hm : matchesExt n ext
      · rw [if_pos hm] at h
        simp only [List.mem_singleton] at h
        exact ⟨[], n, by simpa using h, hm⟩
      · rw [if_neg hm] at h
        simp at h
    · exact ih _ _ _ h
  | dir n readable children rest ihc ihr =>
    intro src dst it h
    simp only [wlSpec] at h
    rcases List.mem_append.mp h with h | h
    · obtain ⟨p, nn, heq, hm⟩ := ihc _ _ _ h
      exact ⟨n :: p, nn, by simpa [List.append_assoc] using heq, hm⟩
    · exact ihr _ _ _ h

/-- Items produced inside a named subdirectory stay in the work list of
the enclosing directory. -/
theorem wlSpec_findDir (ext : Bytes) (t : Tree) :
    ∀ m r ch src dst, findDir t m = some (r, ch) →
      ∀ it ∈ wlSpec ext ch (src ++ [m]) (dst ++ [m]), it ∈ wlSpec ext t src dst := by
  induction t with
  | nil => intro m r ch src dst h; simp [findDir] at h
  | broken rest ih =>
    intro m r ch src dst h it hit
    simpa [wlSpec] using ih m r ch src dst (by simpa [findDir] using h) it hit
  | file n rest ih =>
    intro m r ch src dst h it hit
    simp only [wlSpec]
    exact List.mem_append_right _ (ih m r ch src dst (by simpa [findDir] using h) it hit)
  | dir n readable children rest ihc ihr =>
    intro m r ch src dst h it hit
    simp only [findDir] at h
    by_cases hnm : n = m
    · rw [if_pos hnm] at h
      cases h
      subst hnm
      simp only [wlSpec]
      exact List.mem_append_left _ hit
    · rw [if_neg hnm] at h
      simp only [wlSpec]
      exact List.mem_append_right _ (ihr m r ch src dst h it hit)

/-- A matching file of any subdirectory reached by `subtreeAt` appears in
the work list. -/
theorem wlSpec_complete (ext : Bytes) :
    ∀ (p : FPath) (t sub : Tree) (src dst : FPath) (n : Bytes),
      subtreeAt t p = some sub → n ∈ filesOf sub → matchesExt n ext = true →
      (src ++ p ++ [n], dst ++ p ++ [destFileName n]) ∈ wlSpec ext t src dst := by
  intro p
  induction p with
  | nil =>
    intro t sub src dst n hs hf hm
    simp only [subtreeAt] at hs
    cases hs
    induction t with
    | nil => simp [filesOf] at hf
    | broken rest ih =>
      simp only [filesOf] at hf
      simpa [wlSpec] using ih hf
    | file m rest ih =>
      simp only [filesOf, List.mem_cons] at hf
      simp only [wlSpec]
      rcases hf with rfl | hf
      · exact List.mem_append_left _ (by simp [hm])
      · exact List.mem_append_right _ (ih hf)
    | dir m readable children rest ihc ihr =>
      simp only [filesOf] at hf
      simp only [wlSpec]
      exact List.mem_append_right _ (ihr hf)
  | cons m p ih =>
    intro t sub src dst n hs hf hm
    simp only [subtreeAt] at hs
    cases hfd : findDir t m with
    | none => rw [hfd] at hs; exact absurd hs (by simp)
    | some rc =>
      rw [hfd] at hs
      have hmem := ih rc.2 sub (src ++ [m]) (dst ++ [m]) n hs hf hm
      have := wlSpec_findDir ext t m rc.1 rc.2 src dst (by rw [hfd]) _ hmem
      simpa [List.append_assoc] using this

/-- Two paths ending in a single component agree componentwise. -/
theorem append_singleton_inj {α : Type} {p q : List α} {n m : α}
    (h : p ++ [n] = q ++ [m]) : p = q ∧ n = m := by
  have h2 := congrArg List.reverse h
  simp only [List.reverse_append, List.reverse_singleton, List.singleton_append] at h2
  injection h2 with hn hr
  exact ⟨List.reverse_injective hr, hn⟩

theorem lastDotAux_ge : ∀ (l : Bytes) (i j : Nat), lastDotAux l i = some j → i ≤ j := by
  intro l
  induction l with
  | nil => intro i j h; simp [lastDotAux] at h
  | cons b rest ih =>
    intro i j h
    simp only [lastDotAux] at h
    cases hr : lastDotAux rest (i + 1) with
    | some k =>
      simp only [hr] at h
      have hik := ih (i + 1) k hr
      cases h
      omega
    | none =>
      simp only [hr] at h
      by_cases hb : b = dotByte
      · rw [if_pos hb] at h
        cases h
        exact Nat.le_refl _
      · rw [if_neg hb] at h
        cases h

/-- A file name with an extension has a non-empty stem. -/
theorem fileStem_ne_nil {name e : Bytes} (h : extensionB name = some e) :
    fileStemB name ≠ [] := by
  unfold extensionB splitFileAtDot at h
  unfold fileStemB splitFileAtDot
  by_cases hdd : name = [dotByte, dotByte]
  · rw [if_pos hdd] at h
    simp at h
  · rw [if_neg hdd] at h
    rw [if_neg hdd]
    cases hld : lastDotPos name with
    | none => rw [hld] at h; simp at h
    | some i =>
      simp only [hld]
      cases name with
      | nil => simp [lastDotPos] at hld
      | cons b rest =>
        have hge : 1 ≤ i := lastDotAux_ge rest 1 i (by simpa [lastDotPos] using hld)
        cases i with
        | zero => omega
        | succ k => simp [List.take]

theorem lastDotAux_jpg_none : ∀ i, lastDotAux jpgBytes i = none := by
  intro i
  simp [jpgBytes, lastDotAux, dotByte]

theorem lastDotAux_append_dotjpg : ∀ (xs : Bytes) (i : Nat),
    lastDotAux (xs ++ dotByte :: jpgBytes) i = some (i + xs.length) := by
  intro xs
  induction xs with
  | nil =>
    intro i
    simp [lastDotAux, jpgBytes, dotByte]
  | cons x xs ih =>
    intro i
    simp only [List.cons_append, lastDotAux, List.append_eq, ih (i + 1), List.length_cons]
    congr 1
    omega

/-- Appending `".jpg"` to a non-empty name yields extension `"jpg"`. -/
theorem extensionB_append_dotjpg {s : Bytes} (hs : s ≠ []) :
    extensionB (s ++ dotJpgBytes) = some jpgBytes := by
  cases s with
  | nil => exact absurd rfl hs
  | cons b s2 =>
    have hsplit : dotJpgBytes = dotByte :: jpgBytes := rfl
    have hld : lastDotPos ((b :: s2) ++ dotJpgBytes) = some (1 + s2.length) := by
      rw [hsplit, List.cons_append]
      simp only [lastDotPos]
      exact lastDotAux_append_dotjpg s2 1
    have hne : (b :: s2) ++ dotJpgBytes ≠ [dotByte, dotByte] := by
      intro hcontra
      have := congrArg List.length hcontra
      simp [dotJpgBytes] at this
    have hdrop : ((b :: s2) ++ dotJpgBytes).drop (1 + s2.length + 1) = jpgBytes := by
      rw [hsplit, List.cons_append]
      have h1 : 1 + s2.length + 1 = s2.length + 1 + 1 := by omega
      rw [h1, List.drop_succ_cons]
      have h2 : s2 ++ dotByte :: jpgBytes = (s2 ++ [dotByte]) ++ jpgBytes := by simp
      have h3 : s2.length + 1 = (s2 ++ [dotByte]).length := by simp
      rw [h2, h3, List.drop_left]
    unfold extensionB splitFileAtDot
    rw [if_neg hne]
    simp only [hld]
    rw [hdrop]

/-- The destination name of any file that passed the filter has extension
`"jpg"`. -/
theorem extensionB_destFileName {name e : Bytes} (h : extensionB name = some e) :
    extensionB (destFileName name) = some jpgBytes := by
  unfold destFileName
  by_cases hu : isUtf8 (fileStemB name)
  · rw [if_pos hu]
    exact extensionB_append_dotjpg (fileStem_ne_nil h)
  · rw [if_neg hu]
    exact extensionB_append_dotjpg (by simp [unkBytes])

/-- Unfolding `prepare` on a successful run. -/
theorem prepare_ok {ext : Bytes} {src dst : FPath} {rr : Bool} {root : Tree}
    {created : List FPath} {wl : List (FPath × FPath)}
    (h : prepare ext src dst rr root = .ok (created, wl)) :
    rr = true ∧ prepEntries ext root src dst (mkDirIfAbsent dst ([], [])) = .ok (created, wl) := by
  unfold prepare at h
  cases rr with
  | false => simp at h
  | true => exact ⟨rfl, h⟩

/-- On success the work list is exactly `wlSpec` of the root. -/
theorem prepare_wl {ext : Bytes} {src dst : FPath} {rr : Bool} {root : Tree}
    {created : List FPath} {wl : List (FPath × FPath)}
    (h : prepare ext src dst rr root = .ok (created, wl)) :
    wl = wlSpec ext root src dst := by
  obtain ⟨_, h2⟩ := prepare_ok h
  have := prepEntries_wl ext root _ _ _ _ h2
  simpa [mkDirIfAbsent_snd] using this

/-! ## Lemmas about the pipelined strategy -/

theorem countActive_set {l : List WStatus} {k : Nat} {a : WStatus} (h : l[k]? = some a)
    (b : WStatus) :
    countActive (l.set k b) + (if a.isDone then 0 else 1) =
      countActive l + (if b.isDone then 0 else 1) := by
  induction l generalizing k with
  | nil => simp at h
  | cons x xs ih =>
    cases k with
    | zero =>
      simp only [List.getElem?_cons_zero, Option.some_inj] at h
      simp only [List.set_cons_zero, countActive, List.countP_cons, h]
      cases ha : a.isDone <;> cases hb : b.isDone <;> simp [ha, hb]
    | succ k2 =>
      simp only [List.getElem?_cons_succ] at h
      have h2 := ih h
      simp only [List.set_cons_succ, countActive, List.countP_cons] at h2 ⊢
      cases hx : x.isDone <;> simp [hx] <;> omega

theorem countActive_pos {l : List WStatus} {k : Nat} {st : WStatus}
    (h : l[k]? = some st) (hs : st.isDone = false) : 0 < countActive l := by
  have hm : st ∈ l := List.mem_iff_getElem?.mpr ⟨k, h⟩
  exact List.countP_pos_iff.mpr ⟨st, hm, by simp [hs]⟩

theorem allDone_of_countActive_eq_zero {l : List WStatus} (h : countActive l = 0) :
    ∀ st ∈ l, st.isDone = true := by
  intro st hst
  have := List.countP_eq_zero.mp h st hst
  simpa using this

theorem exists_active_of_countActive_pos {l : List WStatus} (h : 0 < countActive l) :
    ∃ (k : Nat) (st : WStatus), l[k]? = some st ∧ st.isDone = false := by
  obtain ⟨st, hm, hp⟩ := List.countP_pos_iff.mp h
  obtain ⟨k, hk⟩ := List.mem_iff_getElem?.mp hm
  exact ⟨k, st, hk, by simpa using hp⟩

/-- Once every worker has finished, the scope's join loop can return. -/
theorem joinsDone_of_allDone {l : List WStatus} (h : ∀ st ∈ l, st.isDone = true) :
    joinsDone l := by
  induction l with
  | nil => exact Or.inl (by simp)
  | cons a l ih =>
    have ha := h a (by simp)
    cases a with
    | idle => simp [WStatus.isDone] at ha
    | busy it => simp [WStatus.isDone] at ha
    | sending it => simp [WStatus.isDone] at ha
    | doneErr =>
      exact Or.inr ⟨0, by simp, by omega⟩
    | doneOk =>
      rcases ih (fun st hst => h st (by simp [hst])) with hall | ⟨k, hk, hbefore⟩
      · exact Or.inl (by
          intro st hst
          rcases List.mem_cons.mp hst with rfl | hst
          · rfl
          · exact hall st hst)
      · refine Or.inr ⟨k + 1, by simpa using hk, ?_⟩
        intro j hj
        cases j with
        | zero => simp
        | succ j2 => simpa using hbefore j2 (by omega)

/-- A pipeline step never revives a dropped channel handle. -/
theorem handleCount_step_le {Img : Type} {cfg : PipeCfg Img} {s : PipeState} {l : Lab}
    {t : PipeState} (hst : Step cfg s l t) : handleCount t ≤ handleCount s := by
  cases hst with
  | rRead pos sp dp content h1 h2 h3 => simp [handleCount]
  | rReadErr pos sp dp h1 h2 h3 => simp [handleCount]
  | rSend pos it h1 h2 h3 => simp [handleCount]
  | rSendClosed pos it h1 h2 => simp [handleCount]
  | rFinish pos h1 h2 => simp [handleCount]
  | rCancel h1 h2 => simp [handleCount]
  | wkRecv k it rest h1 h2 =>
    have hca := countActive_set h1 (WStatus.busy it)
    simp [WStatus.isDone] at hca
    simp only [handleCount]
    omega
  | wkRecvClosed k h1 h2 h3 =>
    have hca := countActive_set h1 WStatus.doneOk
    simp [WStatus.isDone] at hca
    simp only [handleCount]
    omega
  | wkOk k it out h1 h2 =>
    have hca := countActive_set h1 (WStatus.sending (it.1, out, it.2.2))
    simp [WStatus.isDone] at hca
    simp only [handleCount]
    omega
  | wkErr k it e h1 h2 =>
    have hca := countActive_set h1 WStatus.doneErr
    simp [WStatus.isDone] at hca
    simp only [handleCount]
    omega
  | wkSend k it h1 h2 h3 =>
    have hca := countActive_set h1 WStatus.idle
    simp [WStatus.isDone] at hca
    simp only [handleCount]
    omega
  | wkSendClosed k it h1 h2 =>
    have hca := countActive_set h1 WStatus.doneErr
    simp [WStatus.isDone] at hca
    simp only [handleCount]
    omega
  | wrWrite it rest h1 h2 h3 => simp [handleCount]
  | wrWriteFail it rest h1 h2 h3 => simp [handleCount]
  | wrFinish h1 h2 h3 => simp [handleCount]
  | wrCancel h1 h2 => simp [handleCount]
  | mDrop h1 h2 => simp [handleCount]

/-- Once the output queue is closed it stays closed. -/
theorem closed_step {Img : Type} {cfg : PipeCfg Img} {s : PipeState} {l : Lab} {t : PipeState}
    (hst : Step cfg s l t) (h : handleCount s = 0) : handleCount t = 0 := by
  have := handleCount_step_le hst
  omega

/-- A worker that has finished keeps its status forever. -/
theorem done_step {Img : Type} {cfg : PipeCfg Img} {s : PipeState} {l : Lab} {t : PipeState}
    {k : Nat} {st : WStatus} (hst : Step cfg s l t) (h : s.workers[k]? = some st)
    (hd : st.isDone = true) : t.workers[k]? = some st := by
  cases hst with
  | wkRecv k2 it rest h1 h2 =>
    have hne : k2 ≠ k := by
      intro heq
      subst heq
      rw [h1] at h
      cases h
      simp [WStatus.isDone] at hd
    simpa [List.getElem?_set_ne hne] using h
  | wkRecvClosed k2 h1 h2 h3 =>
    have hne : k2 ≠ k := by
      intro heq
      subst heq
      rw [h1] at h
      cases h
      simp [WStatus.isDone] at hd
    simpa [List.getElem?_set_ne hne] using h
  | wkOk k2 it out h1 h2 =>
    have hne : k2 ≠ k := by
      intro heq
      subst heq
      rw [h1] at h
      cases h
      simp [WStatus.isDone] at hd
    simpa [List.getElem?_set_ne hne] using h
  | wkErr k2 it e h1 h2 =>
    have hne : k2 ≠ k := by
      intro heq
      subst heq
      rw [h1] at h
      cases h
      simp [WStatus.isDone] at hd
    simpa [List.getElem?_set_ne hne] using h
  | wkSend k2 it h1 h2 h3 =>
    have hne : k2 ≠ k := by
      intro heq
      subst heq
      rw [h1] at h
      cases h
      simp [WStatus.isDone] at hd
    simpa [List.getElem?_set_ne hne] using h
  | wkSendClosed k2 it h1 h2 =>
    have hne : k2 ≠ k := by
      intro heq
      subst heq
      rw [h1] at h
      cases h
      simp [WStatus.isDone] at hd
    simpa [List.getElem?_set_ne hne] using h
  | rRead pos sp dp content h1 h2 h3 => exact h
  | rReadErr pos sp dp h1 h2 h3 => exact h
  | rSend pos it h1 h2 h3 => exact h
  | rSendClosed pos it h1 h2 => exact h
  | rFinish pos h1 h2 => exact h
  | rCancel h1 h2 => exact h
  | wrWrite it rest h1 h2 h3 => exact h
  | wrWriteFail it rest h1 h2 h3 => exact h
  | wrFinish h1 h2 h3 => exact h
  | wrCancel h1 h2 => exact h
  | mDrop h1 h2 => exact h

/-- A worker that exited with an error stays in that state along any
continuation of the run. -/
theorem doneErr_reachFrom {Img : Type} {cfg : PipeCfg Img} {s t : PipeState} {k : Nat}
    (h : ReachFrom cfg s t) (hk : s.workers[k]? = some WStatus.doneErr) :
    t.workers[k]? = some WStatus.doneErr := by
  induction h with
  | refl => exact hk
  | tail h2 hstep ih =>
    obtain ⟨l, hl⟩ := hstep
    exact done_step hl ih rfl

theorem not_runOk_of_doneErr {s : PipeState} {k : Nat}
    (hk : s.workers[k]? = some WStatus.doneErr) : ¬ runOk s := by
  intro hok
  have hm : WStatus.doneErr ∈ s.workers := List.mem_iff_getElem?.mpr ⟨k, hk⟩
  cases hok.1 _ hm

theorem inv_init {Img : Type} (cfg : PipeCfg Img) : Inv cfg (pipeInit cfg) where
  inBound := by simp [pipeInit]
  outBound := by simp [pipeInit]
  wrOk := by intro h; simp [pipeInit] at h
  provIn := by intro it h; simp [pipeInit] at h
  provRd := by intro pos it h; simp [pipeInit] at h
  provW := by
    intro k st h
    simp only [pipeInit] at h
    rw [List.getElem?_replicate] at h
    split at h
    · cases h
      trivial
    · cases h
  provOut := by intro it h; simp [pipeInit] at h
  provWr := by intro it h; simp [pipeInit] at h

theorem provW_set {Img : Type} {cfg : PipeCfg Img} {l : List WStatus} {k : Nat} {a : WStatus}
    (hall : ∀ (k2 : Nat) (st : WStatus), l[k2]? = some st → wProv cfg st)
    (_h : l[k]? = some a) {b : WStatus} (hb : wProv cfg b) :
    ∀ (k2 : Nat) (st : WStatus), (l.set k b)[k2]? = some st → wProv cfg st := by
  intro k2 st hst
  rw [List.getElem?_set] at hst
  split at hst
  · split at hst
    · cases hst
      exact hb
    · cases hst
  · exact hall k2 st hst

/-- The pipeline invariant is preserved by every step. -/
theorem inv_step {Img : Type} {cfg : PipeCfg Img} {s : PipeState} {l : Lab} {t : PipeState}
    (hinv : Inv cfg s) (hst : Step cfg s l t) : Inv cfg t := by
  obtain ⟨hin, hout, hwr, hpIn, hpRd, hpW, hpOut, hpWr⟩ := hinv
  cases hst with
  | rRead pos sp dp content h1 h2 h3 =>
    refine ⟨hin, hout, hwr, hpIn, ?_, hpW, hpOut, hpWr⟩
    intro pos2 it h
    cases h
    exact ⟨sp, dp, h2, h3, rfl⟩
  | rReadErr pos sp dp h1 h2 h3 =>
    refine ⟨hin, hout, hwr, hpIn, ?_, hpW, hpOut, hpWr⟩
    intro pos2 it h
    cases h
  | rSend pos it h1 h2 h3 =>
    refine ⟨?_, hout, hwr, ?_, ?_, hpW, hpOut, hpWr⟩
    · simp only [List.length_append, List.length_singleton]
      omega
    · intro it2 hm
      rcases List.mem_append.mp hm with hm | hm
      · exact hpIn it2 hm
      · rw [List.mem_singleton] at hm
        subst hm
        exact hpRd pos _ h1
    · intro pos2 it2 h
      cases h
  | rSendClosed pos it h1 h2 =>
    refine ⟨hin, hout, hwr, hpIn, ?_, hpW, hpOut, hpWr⟩
    intro pos2 it2 h
    cases h
  | rFinish pos h1 h2 =>
    refine ⟨hin, hout, hwr, hpIn, ?_, hpW, hpOut, hpWr⟩
    intro pos2 it2 h
    cases h
  | rCancel h1 h2 =>
    refine ⟨hin, hout, hwr, hpIn, ?_, hpW, hpOut, hpWr⟩
    intro pos2 it2 h
    cases h
  | wkRecv k it rest h1 h2 =>
    have hgood : goodIn cfg it := hpIn it (by rw [h2]; exact List.mem_cons_self _ _)
    refine ⟨?_, hout, ?_, ?_, hpRd, provW_set hpW h1 hgood, hpOut, hpWr⟩
    · have hlen := hin
      rw [h2] at hlen
      simp only [List.length_cons] at hlen
      show rest.length ≤ cfg.L
      omega
    · intro h
      exfalso
      obtain ⟨hh0, -⟩ := hwr h
      have hpos := countActive_pos h1 rfl
      simp only [handleCount] at hh0
      omega
    · intro it2 hm
      exact hpIn it2 (by rw [h2]; exact List.mem_cons_of_mem _ hm)
  | wkRecvClosed k h1 h2 h3 =>
    refine ⟨hin, hout, ?_, hpIn, hpRd, provW_set hpW h1 trivial, hpOut, hpWr⟩
    intro h
    exfalso
    obtain ⟨hh0, -⟩ := hwr h
    have hpos := countActive_pos h1 rfl
    simp only [handleCount] at hh0
    omega
  | wkOk k it out h1 h2 =>
    have hbusy : wProv cfg (WStatus.busy it) := hpW k _ h1
    obtain ⟨sp, dp, hwl, hread, hdp⟩ := hbusy
    have hsend : wProv cfg (WStatus.sending (it.1, out, it.2.2)) := by
      exact ⟨sp, dp, it.2.1, hwl, hread, h2, hdp⟩
    refine ⟨hin, hout, ?_, hpIn, hpRd, provW_set hpW h1 hsend, hpOut, hpWr⟩
    intro h
    exfalso
    obtain ⟨hh0, -⟩ := hwr h
    have hpos := countActive_pos h1 rfl
    simp only [handleCount] at hh0
    omega
  | wkErr k it e h1 h2 =>
    refine ⟨hin, hout, ?_, hpIn, hpRd, provW_set hpW h1 trivial, hpOut, hpWr⟩
    intro h
    exfalso
    obtain ⟨hh0, -⟩ := hwr h
    have hpos := countActive_pos h1 rfl
    simp only [handleCount] at hh0
    omega
  | wkSend k it h1 h2 h3 =>
    have hgood : wProv cfg (WStatus.sending it) := hpW k _ h1
    refine ⟨hin, ?_, ?_, hpIn, hpRd, provW_set hpW h1 trivial, ?_, hpWr⟩
    · simp only [List.length_append, List.length_singleton]
      omega
    · intro h
      exfalso
      obtain ⟨hh0, -⟩ := hwr h
      have hpos := countActive_pos h1 rfl
      simp only [handleCount] at hh0
      omega
    · intro it2 hm
      rcases List.mem_append.mp hm with hm | hm
      · exact hpOut it2 hm
      · rw [List.mem_singleton] at hm
        subst hm
        exact hgood
  | wkSendClosed k it h1 h2 =>
    refine ⟨hin, hout, ?_, hpIn, hpRd, provW_set hpW h1 trivial, hpOut, hpWr⟩
    intro h
    exfalso
    obtain ⟨hh0, -⟩ := hwr h
    have hpos := countActive_pos h1 rfl
    simp only [handleCount] at hh0
    omega
  | wrWrite it rest h1 h2 h3 =>
    refine ⟨hin, ?_, ?_, hpIn, hpRd, hpW, ?_, ?_⟩
    · have hlen := hout
      rw [h2] at hlen
      simp only [List.length_cons] at hlen
      show rest.length ≤ cfg.L
      omega
    · intro h
      rw [h1] at h
      cases h
    · intro it2 hm
      exact hpOut it2 (by rw [h2]; exact List.mem_cons_of_mem _ hm)
    · intro it2 hm
      rcases List.mem_append.mp hm with hm | hm
      · exact hpWr it2 hm
      · rw [List.mem_singleton] at hm
        subst hm
        exact hpOut it2 (by rw [h2]; exact List.mem_cons_self _ _)
  | wrWriteFail it rest h1 h2 h3 =>
    refine ⟨hin, ?_, ?_, hpIn, hpRd, hpW, ?_, hpWr⟩
    · have hlen := hout
      rw [h2] at hlen
      simp only [List.length_cons] at hlen
      show rest.length ≤ cfg.L
      omega
    · intro h
      cases h
    · intro it2 hm
      exact hpOut it2 (by rw [h2]; exact List.mem_cons_of_mem _ hm)
  | wrFinish h1 h2 h3 =>
    refine ⟨hin, hout, ?_, hpIn, hpRd, hpW, hpOut, hpWr⟩
    intro _
    exact ⟨h3, h2⟩
  | wrCancel h1 h2 =>
    refine ⟨hin, hout, ?_, hpIn, hpRd, hpW, hpOut, hpWr⟩
    intro h
    cases h
  | mDrop h1 h2 =>
    refine ⟨hin, hout, ?_, hpIn, hpRd, hpW, hpOut, hpWr⟩
    intro h
    exfalso
    obtain ⟨hh0, -⟩ := hwr h
    simp [handleCount, h1] at hh0

/-- Every reachable pipeline state satisfies the invariant. -/
theorem inv_reach {Img : Type} {cfg : PipeCfg Img} {s : PipeState} (h : Reach cfg s) :
    Inv cfg s := by
  induction h with
  | init => exact inv_init cfg
  | step h2 hst ih => exact inv_step ih hst

/-- In a stuck state every still-active worker is idle on an empty input
queue whose sender (the reader) is still alive. -/
theorem active_worker_shape {Img : Type} {cfg : PipeCfg Img} {s : PipeState}
    (hterm : Terminal cfg s) (hL : 0 < cfg.L) {k : Nat} {st : WStatus}
    (hk : s.workers[k]? = some st) (hact : st.isDone = false) :
    st = WStatus.idle ∧ s.inQ = [] ∧ s.reader.isDone = false := by
  cases st with
  | doneOk => simp [WStatus.isDone] at hact
  | doneErr => simp [WStatus.isDone] at hact
  | busy it =>
    exfalso
    cases hres : resize_image cfg.c it.2.1 cfg.w cfg.h cfg.f with
    | ok out => exact hterm _ _ (Step.wkOk _ k it out hk hres)
    | error e => exact hterm _ _ (Step.wkErr _ k it e hk hres)
  | sending it =>
    exfalso
    by_cases hw : s.writer = WrStatus.running
    · by_cases hq : s.outQ.length < cfg.L
      · exact hterm _ _ (Step.wkSend _ k it hk hq hw)
      · cases hoq : s.outQ with
        | nil =>
          rw [hoq] at hq
          simp at hq
          omega
        | cons it2 rest =>
          cases hwo : cfg.writeOk it2.2.2 it2.2.1 with
          | true => exact hterm _ _ (Step.wrWrite _ it2 rest hw hoq hwo)
          | false => exact hterm _ _ (Step.wrWriteFail _ it2 rest hw hoq hwo)
    · exact hterm _ _ (Step.wkSendClosed _ k it hk hw)
  | idle =>
    have hq : s.inQ = [] := by
      cases hq2 : s.inQ with
      | nil => rfl
      | cons it rest => exact absurd (Step.wkRecv _ k it rest hk hq2) (hterm _ _)
    have hr : s.reader.isDone = false := by
      cases hr2 : s.reader.isDone with
      | false => rfl
      | true => exact absurd (Step.wkRecvClosed _ k hk hq hr2) (hterm _ _)
    exact ⟨rfl, hq, hr⟩

theorem handle_cases {s : PipeState} (h : 0 < handleCount s) :
    (∃ (k : Nat) (st : WStatus), s.workers[k]? = some st ∧ st.isDone = false) ∨
      s.mainHandles = true := by
  by_cases hm : s.mainHandles = true
  · exact Or.inr hm
  · left
    have hmf : s.mainHandles = false := by simpa using hm
    have hpos : 0 < countActive s.workers := by
      simp [handleCount, hmf] at h
      exact h
    exact exists_active_of_countActive_pos hpos

/-- In a stuck state the reader task has exited. -/
theorem terminal_reader {Img : Type} {cfg : PipeCfg Img} {s : PipeState}
    (hterm : Terminal cfg s) (hL : 0 < cfg.L) : s.reader.isDone = true := by
  cases hr : s.reader with
  | reading pos =>
    exfalso
    cases hwl : cfg.wl[pos]? with
    | none => exact hterm _ _ (Step.rFinish _ pos hr hwl)
    | some sd =>
      cases hfs : cfg.fsRead sd.1 with
      | none => exact hterm _ _ (Step.rReadErr _ pos sd.1 sd.2 hr (by rw [hwl]) hfs)
      | some content => exact hterm _ _ (Step.rRead _ pos sd.1 sd.2 content hr (by rw [hwl]) hfs)
  | sending pos it =>
    exfalso
    by_cases hh : handleCount s = 0
    · exact hterm _ _ (Step.rSendClosed _ pos it hr hh)
    · have hpos : 0 < handleCount s := Nat.pos_of_ne_zero hh
      by_cases hq : s.inQ.length < cfg.L
      · exact hterm _ _ (Step.rSend _ pos it hr hq hpos)
      · rcases handle_cases hpos with ⟨k, st, hk, hact⟩ | hm
        · obtain ⟨-, hnil, -⟩ := active_worker_shape hterm hL hk hact
          rw [hnil] at hq
          simp at hq
          omega
        · by_cases hca : countActive s.workers = 0
          · have hall := allDone_of_countActive_eq_zero hca
            exact hterm _ _ (Step.mDrop _ hm (joinsDone_of_allDone hall))
          · have hpos2 : 0 < countActive s.workers := Nat.pos_of_ne_zero hca
            obtain ⟨k, st, hk, hact⟩ := exists_active_of_countActive_pos hpos2
            obtain ⟨-, hnil, -⟩ := active_worker_shape hterm hL hk hact
            rw [hnil] at hq
            simp at hq
            omega
  | doneOk => rfl
  | doneErr => rfl
  | cancelled => rfl

/-- In a stuck state every worker has finished. -/
theorem terminal_workers {Img : Type} {cfg : PipeCfg Img} {s : PipeState}
    (hterm : Terminal cfg s) (hL : 0 < cfg.L) :
    ∀ st ∈ s.workers, st.isDone = true := by
  intro st hst
  by_contra hact
  have hact2 : st.isDone = false := by simpa using hact
  obtain ⟨k, hk⟩ := List.mem_iff_getElem?.mp hst
  obtain ⟨-, -, hrd⟩ := active_worker_shape hterm hL hk hact2
  rw [terminal_reader hterm hL] at hrd
  cases hrd

/-- In a stuck state the scope closure has dropped its handles. -/
theorem terminal_main {Img : Type} {cfg : PipeCfg Img} {s : PipeState}
    (hterm : Terminal cfg s) (hL : 0 < cfg.L) : s.mainHandles = false := by
  cases hm : s.mainHandles with
  | false => rfl
  | true =>
    exfalso
    exact hterm _ _ (Step.mDrop _ hm (joinsDone_of_allDone (terminal_workers hterm hL)))

/-- In a stuck state the output queue is closed. -/
theorem terminal_closed {Img : Type} {cfg : PipeCfg Img} {s : PipeState}
    (hterm : Terminal cfg s) (hL : 0 < cfg.L) : handleCount s = 0 := by
  have hca : countActive s.workers = 0 := by
    rw [countActive, List.countP_eq_zero]
    intro a ha
    simp [terminal_workers hterm hL a ha]
  simp [handleCount, hca, terminal_main hterm hL]

/-- In a stuck state the writer task has exited. -/
theorem terminal_writer {Img : Type} {cfg : PipeCfg Img} {s : PipeState}
    (hterm : Terminal cfg s) (hL : 0 < cfg.L) : s.writer ≠ WrStatus.running := by
  intro hw
  cases hoq : s.outQ with
  | cons it rest =>
    cases hwo : cfg.writeOk it.2.2 it.2.1 with
    | true => exact hterm _ _ (Step.wrWrite _ it rest hw hoq hwo)
    | false => exact hterm _ _ (Step.wrWriteFail _ it rest hw hoq hwo)
  | nil => exact hterm _ _ (Step.wrFinish _ hw hoq (terminal_closed hterm hL))

/-- A send by the reader is only enabled below the queue capacity. -/
theorem rSend_requires_room {Img : Type} {cfg : PipeCfg Img} {s t : PipeState} {i : Nat}
    (hst : Step cfg s (.rSend i) t) : s.inQ.length < cfg.L := by
  cases hst
  assumption

/-- The execution of `cexCfg2` exhibiting processing after a failure. -/
theorem c2trace_exec : Exec cexCfg2 (pipeInit cexCfg2) c2trace := by
  refine Exec.cons _ _ _ _
    (Step.rRead _ 0 [[48]] [[70]] [] (by decide) (by decide) (by decide)) ?_
  refine Exec.cons _ _ _ _
    (Step.rSend _ 1 c2it0 (by decide) (by decide) (by decide)) ?_
  refine Exec.cons _ _ _ _
    (Step.wkRecv _ 0 c2it0 [] (by decide) (by decide)) ?_
  refine Exec.cons _ _ _ _
    (Step.wkErr _ 0 c2it0 (.image .decodeFail) (by decide) (by decide)) ?_
  refine Exec.cons _ _ _ _
    (Step.rRead _ 1 [[49]] [[71]] [5, 5] (by decide) (by decide) (by decide)) ?_
  refine Exec.cons _ _ _ _
    (Step.rSend _ 2 c2it1 (by decide) (by decide) (by decide)) ?_
  refine Exec.cons _ _ _ _
    (Step.wkRecv _ 1 c2it1 [] (by decide) (by decide)) ?_
  refine Exec.cons _ _ _ _
    (Step.wkOk _ 1 c2it1 [1, 1] (by decide) (by decide)) ?_
  exact Exec.nil _

/-- The run of `cexCfg1` reaching the state in which the writer is about
to fail its disk write. -/
theorem c1u5_reach : Reach cexCfg1 c1u5 := by
  have r1 : Reach cexCfg1 c1u1 :=
    Reach.step Reach.init (Step.rRead _ 0 [[48]] [[70]] [5, 5] (by decide) (by decide) (by decide))
  have r2 : Reach cexCfg1 c1u2 :=
    Reach.step r1 (Step.rSend _ 1 c1it (by decide) (by decide) (by decide))
  have r3 : Reach cexCfg1 c1u3 :=
    Reach.step r2 (Step.wkRecv _ 0 c1it [] (by decide) (by decide))
  have r4 : Reach cexCfg1 c1u4 :=
    Reach.step r3 (Step.wkOk _ 0 c1it [1, 1] (by decide) (by decide))
  exact Reach.step r4 (Step.wkSend _ 0 c1out (by decide) (by decide) (by decide))

/-- The failing write step of `cexCfg1`. -/
theorem c1u5_step : Step cexCfg1 c1u5 (.wrWriteFail 0) c1u6 :=
  Step.wrWriteFail _ c1out [] (by decide) (by decide) (by decide)

/-- `fillCfg` reaches a state whose input queue holds exactly `L` items. -/
theorem fillS2_reach : Reach fillCfg fillS2 := by
  have r1 : Reach fillCfg fillS1 :=
    Reach.step Reach.init (Step.rRead _ 0 [[48]] [[70]] [5, 5] (by decide) (by decide) (by decide))
  exact Reach.step r1 (Step.rSend _ 1 (0, [5, 5], [[70]]) (by decide) (by decide) (by decide))

/-! ## Claim theorems -/

/-- Claim C4, counterexample: the destination tree does not mirror only
the subset of the source tree containing matching files — a source
subdirectory `e` with no file beneath it still gets its mirrored
destination directory `d/e`, refuting the claimed "if and only if". -/
theorem claim_c4_counterexample :
    prepare tifBytes [[115]] [[100]] true (Tree.dir [101] true Tree.nil Tree.nil) =
      .ok ([[[100]], [[100], [101]]], []) ∧
    ¬ (∀ p ∈ dirPaths (Tree.dir [101] true Tree.nil Tree.nil),
        ((([[100]] : FPath) ++ p) ∈ ([[[100]], [[100], [101]]] : List FPath) ↔
          ((subtreeAt (Tree.dir [101] true Tree.nil Tree.nil) p).any
            fun sub => specHasMatchingFile tifBytes sub) = true)) := by
  decide

/-- Claim C4, amended: after a successful enumeration the destination
root exists and every source subdirectory appearing in the tree has its
mirrored destination directory created — including subdirectories with
no matching file anywhere beneath them; in particular the spec's forward
direction (a matching file's directory is mirrored) holds. -/
theorem claim_c4 (ext : Bytes) (src dst : FPath) (rr : Bool) (root : Tree)
    (created : List FPath) (wl : List (FPath × FPath)) (hdst : dst ≠ [])
    (h : prepare ext src dst rr root = .ok (created, wl)) :
    dst ∈ created ∧ ∀ p ∈ dirPaths root, (dst ++ p) ∈ created := by
  obtain ⟨-, h2⟩ := prepare_ok h
  refine ⟨?_, ?_⟩
  · exact prepEntries_mono ext root _ _ _ _ h2 dst (self_mem_mkDirIfAbsent dst ([], []) hdst)
  · intro p hp
    exact prepEntries_dirPaths ext root _ _ _ _ h2 p hp

theorem claim_c4_witness :
    ([[100]] : FPath) ∈ ([[[100]], [[100], [101]]] : List FPath) ∧
      (([[100]] : FPath) ++ [[101]]) ∈ ([[[100]], [[100], [101]]] : List FPath) := by
  have hc4 := claim_c4 tifBytes [[115]] [[100]] true (Tree.dir [101] true Tree.nil Tree.nil)
    [[[100]], [[100], [101]]] [] (by decide) (by decide)
  exact ⟨hc4.1, hc4.2 [[101]] (by decide)⟩

/-- Claim C7, counterexample: a matching file whose stem is not valid
UTF-8 is appended with destination name `"unk.jpg"`, not its stem plus
`".jpg"` — the destination file name is not always the source stem plus
`".jpg"`. -/
theorem claim_c7_counterexample :
    prepare tifBytes [[115]] [[100]] true (Tree.file [255, 46, 116, 105, 102] Tree.nil) =
      .ok ([[[100]]],
        [([[115], [255, 46, 116, 105, 102]], [[100], [117, 110, 107, 46, 106, 112, 103]])]) ∧
    ¬ (∀ it ∈ ([(([[115], [255, 46, 116, 105, 102]] : FPath),
          ([[100], [117, 110, 107, 46, 106, 112, 103]] : FPath))] : List (FPath × FPath)),
        it.2.getLast? = it.1.getLast?.map fun n => fileStemB n ++ dotJpgBytes) := by
  decide

/-- Claim C7, amended: every work-list entry pairs a matching source file
with the mirrored destination directory joined with the file's stem (or
`"unk"` when the stem is not valid UTF-8) plus `".jpg"`; hence every
destination path has extension `"jpg"` regardless of the source
extension. -/
theorem claim_c7 (ext : Bytes) (src dst : FPath) (rr : Bool) (root : Tree)
    (created : List FPath) (wl : List (FPath × FPath))
    (h : prepare ext src dst rr root = .ok (created, wl)) :
    ∀ it ∈ wl, ∃ (p : FPath) (n : Bytes),
      it = (src ++ p ++ [n], dst ++ p ++ [destFileName n]) ∧
      matchesExt n ext = true ∧ extensionB (destFileName n) = some jpgBytes := by
  have hwl := prepare_wl h
  intro it hit
  rw [hwl] at hit
  obtain ⟨p, n, heq, hm⟩ := wlSpec_shape ext root _ _ _ hit
  refine ⟨p, n, heq, hm, ?_⟩
  unfold matchesExt at hm
  cases hx : extensionB n with
  | none => rw [hx] at hm; cases hm
  | some e => exact extensionB_destFileName hx

theorem claim_c7_witness :
    ∃ (p : FPath) (n : Bytes),
      (([[115], [97, 46, 116, 105, 102]] : FPath), ([[100], [97, 46, 106, 112, 103]] : FPath)) =
        ([[115]] ++ p ++ [n], [[100]] ++ p ++ [destFileName n]) ∧
      matchesExt n tifBytes = true ∧ extensionB (destFileName n) = some jpgBytes :=
  claim_c7 tifBytes [[115]] [[100]] true (Tree.file [97, 46, 116, 105, 102] Tree.nil)
    [[[100]]] [([[115], [97, 46, 116, 105, 102]], [[100], [97, 46, 106, 112, 103]])]
    (by decide) _ (by decide)

/-- Claim C8, confirmed: a file reached by the walk contributes a work
item if and only if its extension equals the configured one up to ASCII
case, and a non-matching file is skipped silently: its entry changes
nothing (no work item, no error). -/
theorem claim_c8 (ext : Bytes) (src dst : FPath) (rr : Bool) (root : Tree)
    (created : List FPath) (wl : List (FPath × FPath))
    (h : prepare ext src dst rr root = .ok (created, wl))
    (p : FPath) (sub : Tree) (n : Bytes)
    (hs : subtreeAt root p = some sub) (hf : n ∈ filesOf sub) :
    ((∃ d, (src ++ p ++ [n], d) ∈ wl) ↔ matchesExt n ext = true) ∧
    (matchesExt n ext = false → ∀ (rest : Tree) (src2 dst2 : FPath) (acc : PrepAcc),
      prepEntries ext (.file n rest) src2 dst2 acc = prepEntries ext rest src2 dst2 acc) := by
  have hwl := prepare_wl h
  constructor
  · constructor
    · rintro ⟨d, hd⟩
      rw [hwl] at hd
      obtain ⟨p2, n2, heq, hm⟩ := wlSpec_shape ext root _ _ _ hd
      have h1 : src ++ p ++ [n] = src ++ p2 ++ [n2] := congrArg Prod.fst heq
      rw [List.append_assoc, List.append_assoc] at h1
      have h2 := List.append_cancel_left h1
      obtain ⟨-, rfl⟩ := append_singleton_inj h2
      exact hm
    · intro hm
      refine ⟨dst ++ p ++ [destFileName n], ?_⟩
      rw [hwl]
      exact wlSpec_complete ext p root sub src dst n hs hf hm
  · intro hm rest src2 dst2 acc
    unfold matchesExt at hm
    cases hx : extensionB n with
    | none => simp [prepEntries, hx]
    | some e =>
      simp only [hx] at hm
      simp [prepEntries, hx, hm]

theorem claim_c8_witness :
    (∃ d, (([[115]] : FPath) ++ [] ++ [[97, 46, 116, 105, 102]], d) ∈
        ([(([[115], [97, 46, 116, 105, 102]] : FPath),
          ([[100], [97, 46, 106, 112, 103]] : FPath))] : List (FPath × FPath))) ↔
      matchesExt [97, 46, 116, 105, 102] tifBytes = true :=
  (claim_c8 tifBytes [[115]] [[100]] true (Tree.file [97, 46, 116, 105, 102] Tree.nil)
    [[[100]]] [([[115], [97, 46, 116, 105, 102]], [[100], [97, 46, 106, 112, 103]])]
    (by decide) [] (Tree.file [97, 46, 116, 105, 102] Tree.nil) [97, 46, 116, 105, 102]
    (by decide) (by decide)).1

/-- Claim C9, confirmed: a directory-read error during traversal is
fatal: `prepare` aborts at the first error regardless of the remaining
entries, `main` short-circuits before either strategy starts, and no
work item is read, resized, or written; the run fails. -/
theorem claim_c9 {Img : Type} (c : Codec Img) (fsRead : FPath → Option Bytes)
    (writeOk : FPath → Bytes → Bool) (a : RunArgs) (e : PrepErr)
    (hp : prepare a.ext a.src a.dst a.rootReadable a.root = .error e)
    (reads resizes writes : List Nat) (ok : Bool)
    (hr : MainRun c fsRead writeOk a reads resizes writes ok) :
    reads = [] ∧ resizes = [] ∧ writes = [] ∧ ok = false ∧
    (∀ (rest : Tree) (src2 dst2 : FPath) (acc : PrepAcc),
      prepEntries a.ext (.broken rest) src2 dst2 acc = .error .ioFail) ∧
    (∀ (nm : Bytes) (ch rest : Tree) (src2 dst2 : FPath) (acc : PrepAcc),
      isUtf8 nm = true →
      prepEntries a.ext (.dir nm false ch rest) src2 dst2 acc = .error .ioFail) := by
  have himm1 : ∀ (rest : Tree) (src2 dst2 : FPath) (acc : PrepAcc),
      prepEntries a.ext (.broken rest) src2 dst2 acc = .error .ioFail :=
    fun _ _ _ _ => rfl
  have himm2 : ∀ (nm : Bytes) (ch rest : Tree) (src2 dst2 : FPath) (acc : PrepAcc),
      isUtf8 nm = true →
      prepEntries a.ext (.dir nm false ch rest) src2 dst2 acc = .error .ioFail := by
    intro nm ch rest src2 dst2 acc hu
    simp [prepEntries, hu]
  cases hr with
  | prepFail e2 hp2 => exact ⟨rfl, rfl, rfl, rfl, himm1, himm2⟩
  | syncRun cr wl hp2 hasync =>
    rw [hp] at hp2
    cases hp2
  | asyncRun cr wl tr hp2 hasync hex =>
    rw [hp] at hp2
    cases hp2

theorem claim_c9_witness :
    ([] : List Nat) = [] ∧ ([] : List Nat) = [] ∧ ([] : List Nat) = [] ∧ false = false := by
  obtain ⟨h1, h2, h3, h4, -, -⟩ :=
    claim_c9 pairCodec (fun _ => none) (fun _ _ => true) c9args PrepErr.ioFail (by decide)
      [] [] [] false (MainRun.prepFail PrepErr.ioFail (by decide))
  exact ⟨h1, h2, h3, h4⟩

/-- Claim C10, confirmed: two distinct matching files whose stems are not
valid UTF-8 both fall back to destination name `"unk.jpg"`, so they map
to the same destination path and the later write overwrites the
earlier. -/
theorem claim_c10 (ext : Bytes) (src dst : FPath) (n1 n2 : Bytes)
    (h1 : matchesExt n1 ext = true) (h2 : matchesExt n2 ext = true)
    (hu1 : isUtf8 (fileStemB n1) = false) (hu2 : isUtf8 (fileStemB n2) = false) :
    ∃ created, prepare ext src dst true (.file n1 (.file n2 .nil)) =
      .ok (created,
        [(src ++ [n1], dst ++ [unkBytes ++ dotJpgBytes]),
         (src ++ [n2], dst ++ [unkBytes ++ dotJpgBytes])]) ∧
      destFileName n1 = destFileName n2 := by
  refine ⟨(mkDirIfAbsent dst ([], [])).1, ?_, by simp [destFileName, hu1, hu2]⟩
  unfold matchesExt at h1 h2
  cases hx1 : extensionB n1 with
  | none => simp [hx1] at h1
  | some e1 =>
    simp only [hx1] at h1
    cases hx2 : extensionB n2 with
    | none => simp [hx2] at h2
    | some e2 =>
      simp only [hx2] at h2
      unfold prepare
      simp only [if_true]
      simp [prepEntries, hx1, hx2, h1, h2, destFileName, hu1, hu2,
        mkDirIfAbsent_snd]

theorem claim_c10_witness :
    ∃ created, prepare tifBytes [[115]] [[100]] true
        (.file [255, 46, 116, 105, 102] (.file [254, 46, 84, 73, 70] .nil)) =
      .ok (created,
        [([[115]] ++ [[255, 46, 116, 105, 102]], [[100]] ++ [unkBytes ++ dotJpgBytes]),
         ([[115]] ++ [[254, 46, 84, 73, 70]], [[100]] ++ [unkBytes ++ dotJpgBytes])]) ∧
      destFileName [255, 46, 116, 105, 102] = destFileName [254, 46, 84, 73, 70] :=
  claim_c10 tifBytes [[115]] [[100]] [255, 46, 116, 105, 102] [254, 46, 84, 73, 70]
    (by decide) (by decide) (by decide) (by decide)

/-- Claim C1, counterexample: the writer task does not always terminate
only after the close and final drain — a failing disk write ends the
writer while a worker is still active (queue not closed) and with the
received item unwritten. -/
theorem claim_c1_counterexample : ¬ writerStopsAfterCloseAndDrain cexCfg1 := by
  intro hclaim
  have hres := hclaim c1u5 (.wrWriteFail 0) c1u6 c1u5_reach c1u5_step (by decide) (by decide)
  exact absurd hres.1 (by decide)

/-- Claim C1, amended: the output queue is closed only once every worker
has finished (never when merely the first worker finishes), closedness is
stable — so the queue closes at most once, and, since every stuck state
of a positive-capacity run is closed, exactly once in any run that
completes; the writer's normal loop exit happens only with the queue
closed and drained (an abnormal exit on a disk-write error or
cancellation may come earlier). -/
theorem claim_c1 {Img : Type} (cfg : PipeCfg Img) :
    (∀ s, Reach cfg s →
      ((handleCount s = 0 → ∀ st ∈ s.workers, st.isDone = true) ∧
        (s.writer = WrStatus.doneOk → handleCount s = 0 ∧ s.outQ = []))) ∧
    (∀ s l t, Step cfg s l t → handleCount s = 0 → handleCount t = 0) ∧
    (0 < cfg.L → ∀ s, Terminal cfg s →
      handleCount s = 0 ∧ (∀ st ∈ s.workers, st.isDone = true) ∧
        s.writer ≠ WrStatus.running) := by
  refine ⟨?_, ?_, ?_⟩
  · intro s hs
    refine ⟨?_, (inv_reach hs).wrOk⟩
    intro h0
    have hca : countActive s.workers = 0 := by
      simp only [handleCount] at h0
      omega
    exact allDone_of_countActive_eq_zero hca
  · intro s l t hst h0
    exact closed_step hst h0
  · intro hL s hterm
    exact ⟨terminal_closed hterm hL, terminal_workers hterm hL, terminal_writer hterm hL⟩

theorem claim_c1_witness :
    (handleCount (pipeInit cexCfg1) = 0 →
      ∀ st ∈ (pipeInit cexCfg1).workers, st.isDone = true) ∧
    ((pipeInit cexCfg1).writer = WrStatus.doneOk →
      handleCount (pipeInit cexCfg1) = 0 ∧ (pipeInit cexCfg1).outQ = []) :=
  (claim_c1 cexCfg1).1 (pipeInit cexCfg1) Reach.init

/-- Claim C2, counterexample: a worker error does not stop the pool —
after worker 0 fails on item 0, the reader submits item 1 and worker 1
receives it, so an item submitted after the failure is processed. -/
theorem claim_c2_counterexample : ¬ noItemAfterFailureProcessed cexCfg2 := by
  intro hclaim
  have hres := hclaim c2trace c2trace_exec 3 5 6 (by omega) (by omega)
    ⟨0, 0, by decide⟩ 1 (by decide) 1
  exact hres (by decide)

/-- Claim C2, amended: a worker error stops only that worker: its failed
status is absorbing and dooms the run's result, but worker steps never
change the reader's status — no mechanism closes the input queue on a
worker error — so other workers may keep accepting items submitted after
the failure. -/
theorem claim_c2 {Img : Type} (cfg : PipeCfg Img) :
    (∀ (s t : PipeState) (k : Nat), ReachFrom cfg s t →
      s.workers[k]? = some WStatus.doneErr →
      t.workers[k]? = some WStatus.doneErr ∧ ¬ runOk t) ∧
    (∀ s l t, Step cfg s l t → Lab.isWorkerLab l = true → t.reader = s.reader) := by
  refine ⟨?_, ?_⟩
  · intro s t k hrf hk
    have hkt := doneErr_reachFrom hrf hk
    exact ⟨hkt, not_runOk_of_doneErr hkt⟩
  · intro s l t hst hl
    cases hst <;> first | rfl | simp [Lab.isWorkerLab] at hl

theorem claim_c2_witness :
    c2s4.workers[0]? = some WStatus.doneErr ∧ ¬ runOk c2s4 :=
  (claim_c2 cexCfg2).1 c2s4 c2s4 0 Relation.ReflTransGen.refl (by decide)

/-- Claim C3, confirmed: with a positive configured limit `L`, both
inter-stage queues are bounded by their capacity `L` in every reachable
state — independent of the work list — so at most `L` raw and `L`
encoded payloads (at most `2 × L` in total) are buffered; the reader
cannot enqueue when the input queue is full, and the bound `L` is
attained. -/
theorem claim_c3 {Img : Type} (cfg : PipeCfg Img) (_hL : 0 < cfg.L) :
    (∀ s, Reach cfg s →
      s.inQ.length ≤ cfg.L ∧ s.outQ.length ≤ cfg.L ∧
        s.inQ.length + s.outQ.length ≤ 2 * cfg.L ∧
        (s.inQ.length = cfg.L → ∀ (i : Nat) (t : PipeState), ¬ Step cfg s (.rSend i) t)) ∧
    (∃ t, Reach fillCfg t ∧ t.inQ.length = fillCfg.L) := by
  refine ⟨?_, ⟨fillS2, fillS2_reach, by decide⟩⟩
  intro s hs
  obtain ⟨hin, hout, -, -, -, -, -, -⟩ := inv_reach hs
  refine ⟨hin, hout, by omega, ?_⟩
  intro hfull i t hst
  have hroom := rSend_requires_room hst
  omega

theorem claim_c3_witness :
    (pipeInit fillCfg).inQ.length ≤ fillCfg.L ∧
      (pipeInit fillCfg).outQ.length ≤ fillCfg.L ∧
      (pipeInit fillCfg).inQ.length + (pipeInit fillCfg).outQ.length ≤ 2 * fillCfg.L ∧
      ((pipeInit fillCfg).inQ.length = fillCfg.L →
        ∀ (i : Nat) (t : PipeState), ¬ Step fillCfg (pipeInit fillCfg) (.rSend i) t) :=
  (claim_c3 fillCfg (by decide)).1 (pipeInit fillCfg) Reach.init

/-- The concrete codec satisfies the library contracts. -/
theorem pairCodecOk : CodecOk pairCodec where
  resize_dims := by intro im w h f; rfl
  encode_decode_dims := by
    intro im q out im2 hw hl
    cases hw
    cases hl
    rfl

/-- Claim C5, confirmed: when the input decodes, `resize_image` encodes
the image resized to exactly `(w, h)` as JPEG at the fixed quality 8
(independent of any configuration), and — under the codec contracts —
any produced bytes decode to pixel dimensions exactly `(w, h)` for every
source image regardless of its aspect ratio. -/
theorem claim_c5 {Img : Type} (c : Codec Img) (hc : CodecOk c) (input : Bytes)
    (w h : Nat) (f : Filter) (im : Img) (him : c.loadFromMemory input = some im) :
    resize_image c input w h f =
      (match c.writeJpeg (c.resize im w h f) 8 with
        | none => .error (.image .encodeFail)
        | some out => .ok out) ∧
    ∀ out, resize_image c input w h f = .ok out →
      c.writeJpeg (c.resize im w h f) 8 = some out ∧
      ∀ im2, c.loadFromMemory out = some im2 → c.dims im2 = (w, h) := by
  have hdef : resize_image c input w h f =
      (match c.writeJpeg (c.resize im w h f) 8 with
        | none => .error (.image .encodeFail)
        | some out => .ok out) := by
    unfold resize_image
    rw [him]
  refine ⟨hdef, ?_⟩
  intro out hok
  rw [hdef] at hok
  cases hw : c.writeJpeg (c.resize im w h f) 8 with
  | none =>
    rw [hw] at hok
    cases hok
  | some o =>
    rw [hw] at hok
    cases hok
    refine ⟨rfl, ?_⟩
    intro im2 hl
    rw [hc.encode_decode_dims _ _ _ _ hw hl, hc.resize_dims]

theorem claim_c5_witness :
    resize_image pairCodec [5, 5] 3 4 .nearest =
      (match pairCodec.writeJpeg (pairCodec.resize (5, 5) 3 4 .nearest) 8 with
        | none => .error (.image .encodeFail)
        | some out => .ok out) ∧
    ∀ out, resize_image pairCodec [5, 5] 3 4 .nearest = .ok out →
      pairCodec.writeJpeg (pairCodec.resize (5, 5) 3 4 .nearest) 8 = some out ∧
      ∀ im2, pairCodec.loadFromMemory out = some im2 → pairCodec.dims im2 = (3, 4) :=
  claim_c5 pairCodec pairCodecOk [5, 5] 3 4 .nearest (5, 5) (by decide)

/-- Claim C6, confirmed: for a work item whose source bytes do not decode
as a valid image, processing yields a decode error; no destination file
is written for that item in either strategy (the write follows a
successful resize only), and the run ends with an error: the
data-parallel branch panics on `unwrap`, and in the pipeline the failed
worker's status survives to every later state and forbids an `Ok`
result. -/
theorem claim_c6 {Img : Type} (c : Codec Img) (input : Bytes)
    (hbad : c.loadFromMemory input = none) :
    (∀ (w h : Nat) (f : Filter), resize_image c input w h f = .error (.image .decodeFail)) ∧
    (∀ (fsRead : FPath → Option Bytes) (src dst : FPath) (w h : Nat) (f : Filter),
      fsRead src = some input →
      sync_version c fsRead src dst w h f = (.error (.image .decodeFail), [])) ∧
    (∀ (fsRead : FPath → Option Bytes) (wl : List (FPath × FPath)) (w h : Nat) (f : Filter)
      (src dst : FPath), (src, dst) ∈ wl → fsRead src = some input →
      parRunOk c fsRead wl w h f = false) ∧
    (∀ (cfg : PipeCfg Img) (j : Nat) (sp dp : FPath), cfg.c = c →
      cfg.wl[j]? = some (sp, dp) → cfg.fsRead sp = some input →
      ∀ s, Reach cfg s → ∀ (b : Bytes) (p : FPath),
        (j, b, p) ∉ s.outQ ∧ (j, b, p) ∉ s.written) ∧
    (∀ (cfg : PipeCfg Img) (s t : PipeState) (k : Nat), ReachFrom cfg s t →
      s.workers[k]? = some WStatus.doneErr → ¬ runOk t) := by
  have ha : ∀ (w h : Nat) (f : Filter),
      resize_image c input w h f = .error (.image .decodeFail) := by
    intro w h f
    simp [resize_image, hbad]
  have hb : ∀ (fsRead : FPath → Option Bytes) (src dst : FPath) (w h : Nat) (f : Filter),
      fsRead src = some input →
      sync_version c fsRead src dst w h f = (.error (.image .decodeFail), []) := by
    intro fsRead src dst w h f hread
    simp [sync_version, hread, ha w h f]
  refine ⟨ha, hb, ?_, ?_, ?_⟩
  · intro fsRead wl w h f src dst hmem hread
    cases hall : parRunOk c fsRead wl w h f with
    | false => rfl
    | true =>
      exfalso
      have hone := List.all_eq_true.mp hall (src, dst) hmem
      rw [show sync_version c fsRead (src, dst).1 (src, dst).2 w h f =
          (.error (.image .decodeFail), []) from hb fsRead src dst w h f hread] at hone
      simp at hone
  · intro cfg j sp dp hc hwl hread s hs b p
    have hno : ∀ it : Item, goodOut cfg it → it.1 ≠ j := by
      intro it hgood heq
      obtain ⟨sp2, dp2, raw, hwl2, hread2, hres, -⟩ := hgood
      rw [heq, hwl] at hwl2
      have hpair := Option.some_inj.mp hwl2
      have hsp : sp = sp2 := congrArg Prod.fst hpair
      rw [← hsp, hread] at hread2
      have hraw : input = raw := Option.some_inj.mp hread2
      rw [← hraw, hc] at hres
      rw [ha cfg.w cfg.h cfg.f] at hres
      cases hres
    have hinv := inv_reach hs
    exact ⟨fun hmem => hno _ (hinv.provOut _ hmem) rfl,
      fun hmem => hno _ (hinv.provWr _ hmem) rfl⟩
  · intro cfg s t k hrf hk
    exact not_runOk_of_doneErr (doneErr_reachFrom hrf hk)

theorem claim_c6_witness :
    resize_image pairCodec [] 1 2 .nearest = .error (.image .decodeFail) :=
  (claim_c6 pairCodec [] (by decide)).1 1 2 .nearest

end Thumbnails
